import Mathlib

/-!
Verification development for scripts/cleanup_html.py: the tolerant HTML tree
builder, the structural rewrite pipeline and the canonical serializer.

The Python Node class carries a parent back reference that is used only for
ancestor queries and removal; the embedding drops it and models the mutating
passes as pure tree functions, with node identity replaced by paths (lists of
child indices) where the source relies on object identity. Machine text is
modeled as Lean String, manipulated through its underlying character list so
that all definitions evaluate by kernel reduction.
-/

/-! ## String primitives (models of the Python str methods used by the script) -/

/-- Model of the Python str.strip method on a character list: drop whitespace
from both ends. -/
def py_strip (cs : List Char) : List Char :=
  ((cs.dropWhile Char.isWhitespace).reverse.dropWhile Char.isWhitespace).reverse

/-- Model of the Python str.strip method on strings. -/
def str_strip (s : String) : String :=
  ⟨py_strip s.data⟩

/-- Lower case a character list (model of str.lower for the ASCII tag and
pattern text that occurs here). -/
def lower_chars (cs : List Char) : List Char :=
  cs.map Char.toLower

/-- Substring containment test on character lists. -/
def contains_sub (needle hay : List Char) : Bool :=
  match hay with
  | [] => needle.isEmpty
  | _ :: rest => needle.isPrefixOf hay || contains_sub needle rest

/-- Model of FOOTER_PATTERN.search: the regular expression
(© or creative commons) with the IGNORECASE flag, read as: the text contains
the character © or contains the phrase creative commons case insensitively. -/
def footer_pattern_matches (s : String) : Bool :=
  s.data.contains '©' || contains_sub "creative commons".data (lower_chars s.data)

/-! ## Constants of the script -/

/-- VOID_ELEMENTS from the source. -/
def VOID_ELEMENTS : List String :=
  ["area", "base", "br", "col", "embed", "hr", "img", "input", "link", "meta",
   "param", "source", "track", "wbr"]

/-- PRESERVE_WHITESPACE_TAGS from the source. -/
def PRESERVE_WHITESPACE_TAGS : List String :=
  ["pre", "code", "textarea", "script", "style"]

/-- FOOTER_CANDIDATE_TAGS from the source. -/
def FOOTER_CANDIDATE_TAGS : List String :=
  ["p", "div", "section", "span", "small", "footer", "aside", "blockquote",
   "ul", "ol", "li"]

/-! ## The Node data model -/

/-- Embedding of the Python Node class: tag, attrs (an insertion ordered
mapping, modeled as an association list), children, text and the two variant
flags. The parent back reference is not stored. -/
inductive Node where
  | mk (tag : Option String) (attrs : List (String × String)) (children : List Node)
       (text : Option String) (is_doctype : Bool) (is_comment : Bool)

def Node.tag : Node → Option String
  | .mk t _ _ _ _ _ => t

def Node.attrs : Node → List (String × String)
  | .mk _ a _ _ _ _ => a

def Node.children : Node → List Node
  | .mk _ _ c _ _ _ => c

def Node.text : Node → Option String
  | .mk _ _ _ t _ _ => t

def Node.is_doctype : Node → Bool
  | .mk _ _ _ _ d _ => d

def Node.is_comment : Node → Bool
  | .mk _ _ _ _ _ c => c

/-- Element node, as built by handle_starttag and handle_startendtag. -/
def Node.elem (tag : String) (attrs : List (String × String)) (children : List Node) : Node :=
  .mk (some tag) attrs children none false false

/-- Text node, as built by handle_data. -/
def Node.textNode (s : String) : Node :=
  .mk none [] [] (some s) false false

/-- Comment node, as built by handle_comment. -/
def Node.commentNode (s : String) : Node :=
  .mk none [] [] (some s) false true

/-- Doctype node, as built by handle_decl. -/
def Node.doctypeNode (s : String) : Node :=
  .mk none [] [] (some s) true false

/-- Replace the children of a node. -/
def Node.withChildren (n : Node) (cs : List Node) : Node :=
  match n with
  | .mk tag a _ t d m => .mk tag a cs t d m

/-- Replace the text of a node. -/
def Node.withText (n : Node) (t : Option String) : Node :=
  match n with
  | .mk tag a c _ d m => .mk tag a c t d m

/-- Replace the tag of a node. -/
def Node.withTag (n : Node) (tag : Option String) : Node :=
  match n with
  | .mk _ a c t d m => .mk tag a c t d m

mutual
def Node.beq : Node → Node → Bool
  | .mk t1 a1 c1 x1 d1 m1, .mk t2 a2 c2 x2 d2 m2 =>
    t1 == t2 && a1 == a2 && Node.beqList c1 c2 && x1 == x2 && d1 == d2 && m1 == m2

def Node.beqList : List Node → List Node → Bool
  | [], [] => true
  | a :: as, b :: bs => Node.beq a b && Node.beqList as bs
  | _, _ => false
end

mutual
theorem Node.beq_iff : ∀ a b : Node, Node.beq a b = true ↔ a = b
  | .mk t1 a1 c1 x1 d1 m1, .mk t2 a2 c2 x2 d2 m2 => by
    simp only [Node.beq, Bool.and_eq_true, beq_iff_eq, Node.beqList_iff c1 c2, Node.mk.injEq]
    tauto

theorem Node.beqList_iff : ∀ as bs : List Node, Node.beqList as bs = true ↔ as = bs
  | [], [] => by simp [Node.beqList]
  | [], _ :: _ => by simp [Node.beqList]
  | _ :: _, [] => by simp [Node.beqList]
  | a :: as, b :: bs => by
    simp only [Node.beqList, Bool.and_eq_true, Node.beq_iff a b, Node.beqList_iff as bs,
      List.cons.injEq]
end

instance : DecidableEq Node := fun a b => decidable_of_iff _ (Node.beq_iff a b)

/-! ## Tree queries -/

mutual
/-- Embedding of get_text from the source: a node with tag None returns its
stored text (note that this branch also captures comments and doctypes, whose
tag is None, so the explicit is_comment and is_doctype branch below it is
unreachable); otherwise the concatenation of the texts of the children. -/
def get_text : Node → String
  | .mk none _ _ t _ _ => t.getD ""
  | .mk (some _) _ cs _ isd isc => if isc || isd then "" else get_text_list cs

def get_text_list : List Node → String
  | [] => ""
  | c :: cs => get_text c ++ get_text_list cs
end

/-- Embedding of is_whitespace_node from the source. -/
def is_whitespace_node (node : Node) : Bool :=
  node.tag == none && str_strip (node.text.getD "") == ""

/-- Embedding of meaningful_children from the source: children that are
neither comments, doctypes, nor whitespace only text nodes. -/
def meaningful_children (node : Node) : List Node :=
  node.children.filter (fun child =>
    !(child.is_comment || child.is_doctype) &&
    !(child.tag == none && str_strip (child.text.getD "") == ""))

mutual
/-- All nodes of a tree, the root included, in depth first preorder. -/
def subnodes : Node → List Node
  | .mk t a cs x d m => .mk t a cs x d m :: subnodes_list cs

def subnodes_list : List Node → List Node
  | [] => []
  | c :: cs => subnodes c ++ subnodes_list cs
end

/-- Strict subnodes: every node strictly below the given one. -/
def proper_subnodes (n : Node) : List Node :=
  subnodes_list n.children

/-- All element nodes of a tree (nodes with a tag), the root included when it
is an element. -/
def elems (n : Node) : List Node :=
  (subnodes n).filter (fun m => m.tag.isSome)

/-! ## Whitespace normalization (clean_whitespace, ensure_matching_sections) -/

/-- Text fixups of clean_whitespace: carriage returns removed, tabs turned
into single spaces. -/
def cw_fix_text (s : String) : String :=
  ⟨(s.data.filter (fun c => c != '\r')).map (fun c => if c = '\t' then ' ' else c)⟩

mutual
/-- Embedding of clean_whitespace from the source. Inside preserve mode, text
nodes (which in the source test tag is None, so comments and doctypes are
treated the same way) are kept verbatim; outside it their text is fixed up and
whitespace only ones are dropped. -/
def clean_whitespace (node : Node) (preserve : Bool) : Node :=
  match node with
  | .mk t a cs x d m =>
    let preserve := preserve || (match t with
      | some tg => PRESERVE_WHITESPACE_TAGS.contains tg
      | none => false)
    .mk t a (clean_whitespace_children cs preserve) x d m

def clean_whitespace_children : List Node → Bool → List Node
  | [], _ => []
  | .mk none a cs x d m :: rest, preserve =>
    if preserve then
      .mk none a cs x d m :: clean_whitespace_children rest preserve
    else
      let x2 := x.map cw_fix_text
      if str_strip (x2.getD "") == "" then
        clean_whitespace_children rest preserve
      else
        (clean_whitespace (.mk none a cs x d m) preserve).withText x2 ::
          clean_whitespace_children rest preserve
  | .mk (some t) a cs x d m :: rest, preserve =>
    clean_whitespace (.mk (some t) a cs x d m) preserve ::
      clean_whitespace_children rest preserve
end

/-- Embedding of ensure_matching_sections from the source: it just runs
clean_whitespace on the root. -/
def ensure_matching_sections (root : Node) : Node :=
  clean_whitespace root false

/-! ## Redundant wrapper unwrapping (remove_redundant_wrappers) -/

mutual
/-- Size measure: number of nodes in a tree. -/
def node_size : Node → Nat
  | .mk _ _ cs _ _ _ => 1 + list_size cs

def list_size : List Node → Nat
  | [] => 0
  | c :: cs => node_size c + list_size cs
end

theorem list_size_append (a b : List Node) :
    list_size (a ++ b) = list_size a + list_size b := by
  induction a with
  | nil => simp [list_size]
  | cons c cs ih => simp [list_size, ih]; omega

/-- Qualification test of remove_redundant_wrappers: a div with no
attributes whose meaningful children are exactly one node, that node being a
section or main (with the div owning no non whitespace text of its own) or
another attribute free div. -/
def rrw_qualifies (div : Node) : Bool :=
  div.tag == some "div" && div.attrs.isEmpty &&
  (match meaningful_children div with
   | [child] =>
     ((child.tag == some "section" || child.tag == some "main") &&
       !(div.children.any (fun c => c.tag == none && str_strip (c.text.getD "") != ""))) ||
     (child.tag == some "div" && child.attrs.isEmpty)
   | _ => false)

mutual
/-- One fixpoint step of remove_redundant_wrappers: find the first
qualifying div in the preorder walk of iter_tags and unwrap it (replace it in
its parent children by its own children), or return none when no div
qualifies. The source restarts its scan from the root after every unwrap. -/
def rrw_step : Node → Option Node
  | .mk t a cs x d m =>
    match rrw_step_list cs with
    | some cs2 => some (.mk t a cs2 x d m)
    | none => none

def rrw_step_list : List Node → Option (List Node)
  | [] => none
  | .mk (some t) a cs x d m :: rest =>
    if rrw_qualifies (.mk (some t) a cs x d m) then
      some (cs ++ rest)
    else
      match rrw_step (.mk (some t) a cs x d m) with
      | some child2 => some (child2 :: rest)
      | none =>
        match rrw_step_list rest with
        | some rest2 => some (.mk (some t) a cs x d m :: rest2)
        | none => none
  | .mk none a cs x d m :: rest =>
    match rrw_step_list rest with
    | some rest2 => some (.mk none a cs x d m :: rest2)
    | none => none
end

mutual
theorem rrw_step_size : ∀ (n n2 : Node), rrw_step n = some n2 → node_size n2 < node_size n
  | .mk t a cs x d m, n2, h => by
    rw [rrw_step] at h
    cases h2 : rrw_step_list cs with
    | none => rw [h2] at h; cases h
    | some cs2 =>
      rw [h2] at h
      cases h
      have := rrw_step_list_size cs cs2 h2
      simp only [node_size]
      omega

theorem rrw_step_list_size :
    ∀ (cs cs2 : List Node), rrw_step_list cs = some cs2 → list_size cs2 < list_size cs
  | [], cs2, h => by rw [rrw_step_list] at h; cases h
  | .mk (some t) a cs x d m :: rest, cs2, h => by
    rw [rrw_step_list] at h
    by_cases hq : rrw_qualifies (.mk (some t) a cs x d m)
    · rw [if_pos hq] at h
      cases h
      rw [list_size_append]
      simp only [list_size, node_size]
      omega
    · rw [if_neg hq] at h
      cases h3 : rrw_step (.mk (some t) a cs x d m) with
      | some child2 =>
        rw [h3] at h
        cases h
        have := rrw_step_size _ child2 h3
        simp only [list_size]
        omega
      | none =>
        rw [h3] at h
        cases h4 : rrw_step_list rest with
        | none => rw [h4] at h; cases h
        | some rest2 =>
          rw [h4] at h
          cases h
          have := rrw_step_list_size rest rest2 h4
          simp only [list_size]
          omega
  | .mk none a cs x d m :: rest, cs2, h => by
    rw [rrw_step_list] at h
    cases h4 : rrw_step_list rest with
    | none => rw [h4] at h; cases h
    | some rest2 =>
      rw [h4] at h
      cases h
      have := rrw_step_list_size rest rest2 h4
      simp only [list_size]
      omega
end

/-- Fixpoint loop of remove_redundant_wrappers, with structural fuel so that
the definition evaluates by kernel reduction. -/
def rrw_loop : Nat → Node → Node
  | 0, root => root
  | fuel + 1, root =>
    match rrw_step root with
    | none => root
    | some root2 => rrw_loop fuel root2

/-- Embedding of remove_redundant_wrappers: repeat the unwrap step until a
full scan makes no change. Every unwrap removes exactly one node, so the
node count is enough fuel to reach the fixpoint (proved below). -/
def remove_redundant_wrappers (root : Node) : Node :=
  rrw_loop (node_size root) root

/-! ## Empty heading and empty italic removal, alt text injection -/

mutual
/-- Embedding of remove_empty_headings: delete every h1 or h2 whose stripped
text content is empty. The preorder walk of iter_tags descends only into
tagged nodes, which the embedding mirrors. -/
def remove_empty_headings : Node → Node
  | .mk t a cs x d m => .mk t a (remove_empty_headings_list cs) x d m

def remove_empty_headings_list : List Node → List Node
  | [] => []
  | .mk (some t) a cs x d m :: rest =>
    if (t == "h1" || t == "h2") && str_strip (get_text (.mk (some t) a cs x d m)) == "" then
      remove_empty_headings_list rest
    else
      remove_empty_headings (.mk (some t) a cs x d m) :: remove_empty_headings_list rest
  | .mk none a cs x d m :: rest =>
    .mk none a cs x d m :: remove_empty_headings_list rest
end

/-- Deletion test of remove_empty_italics: an i element with no attributes,
empty stripped text and no child whose tag is truthy (in Python a missing tag
or an empty string tag are both falsy). -/
def rei_removes (node : Node) : Bool :=
  node.tag == some "i" && node.attrs.isEmpty &&
  str_strip (get_text node) == "" &&
  !(node.children.any (fun c => c.tag.getD "" != ""))

mutual
/-- Embedding of remove_empty_italics. -/
def remove_empty_italics : Node → Node
  | .mk t a cs x d m => .mk t a (remove_empty_italics_list cs) x d m

def remove_empty_italics_list : List Node → List Node
  | [] => []
  | .mk (some t) a cs x d m :: rest =>
    if rei_removes (.mk (some t) a cs x d m) then
      remove_empty_italics_list rest
    else
      remove_empty_italics (.mk (some t) a cs x d m) :: remove_empty_italics_list rest
  | .mk none a cs x d m :: rest =>
    .mk none a cs x d m :: remove_empty_italics_list rest
end

/-- Dictionary read on the association list model of attrs. -/
def attrs_get (a : List (String × String)) (k : String) : Option String :=
  (a.find? (fun p => p.1 == k)).map (fun p => p.2)

/-- Dictionary write on the association list model of attrs: an existing key
keeps its position, a new key is appended at the end, as Python dicts do. -/
def attrs_set (a : List (String × String)) (k v : String) : List (String × String) :=
  if (a.find? (fun p => p.1 == k)).isSome then
    a.map (fun p => if p.1 == k then (p.1, v) else p)
  else
    a ++ [(k, v)]

/-- Missing or whitespace only alt test of add_alt_text. -/
def alt_missing (a : List (String × String)) : Bool :=
  match attrs_get a "alt" with
  | none => true
  | some v => v == "" || str_strip v == ""

mutual
/-- Transformation of add_alt_text on one tagged node and its subtree: an
img whose alt attribute is missing or whitespace only receives the
placeholder value. Untagged nodes are not visited by iter_tags. -/
def add_alt_text_node : Node → Node
  | .mk (some t) a cs x d m =>
    let a2 := if t == "img" && alt_missing a then attrs_set a "alt" "Image description" else a
    .mk (some t) a2 (add_alt_text_list cs) x d m
  | .mk none a cs x d m => .mk none a cs x d m

def add_alt_text_list : List Node → List Node
  | [] => []
  | c :: rest => add_alt_text_node c :: add_alt_text_list rest
end

/-- Embedding of add_alt_text on the root (which iter_tags never yields). -/
def add_alt_text (root : Node) : Node :=
  match root with
  | .mk t a cs x d m => .mk t a (add_alt_text_list cs) x d m

/-! ## Heading level normalization (normalize_headings) -/

/-- The six heading tags. -/
def HEADING_TAGS : List String := ["h1", "h2", "h3", "h4", "h5", "h6"]

/-- New tag of a non first heading: h1 is demoted to h2, h4 to h6 are
promoted to h3, h2 and h3 stay. -/
def demote_tag (t : String) : String :=
  if t == "h1" then "h2"
  else if t == "h4" || t == "h5" || t == "h6" then "h3"
  else t

mutual
/-- Embedding of normalize_headings as a stateful preorder walk: the Boolean
records whether the first heading with non empty stripped text has already
been seen. The source collects the heading list first and then retags it;
retagging does not change any text content, so the walk is equivalent. -/
def normalize_headings_node : Bool → Node → (Node × Bool)
  | seen, .mk (some t) a cs x d m =>
    if HEADING_TAGS.contains t && str_strip (get_text (.mk (some t) a cs x d m)) != "" then
      if seen then
        (.mk (some (demote_tag t)) a (normalize_headings_list true cs).1 x d m,
          (normalize_headings_list true cs).2)
      else
        (.mk (some "h1") a (normalize_headings_list true cs).1 x d m,
          (normalize_headings_list true cs).2)
    else
      (.mk (some t) a (normalize_headings_list seen cs).1 x d m,
        (normalize_headings_list seen cs).2)
  | seen, .mk none a cs x d m => (.mk none a cs x d m, seen)

def normalize_headings_list : Bool → List Node → (List Node × Bool)
  | seen, [] => ([], seen)
  | seen, c :: rest =>
    ((normalize_headings_node seen c).1 ::
        (normalize_headings_list (normalize_headings_node seen c).2 rest).1,
      (normalize_headings_list (normalize_headings_node seen c).2 rest).2)
end

/-- Embedding of normalize_headings on the root. -/
def normalize_headings (root : Node) : Node :=
  root.withChildren (normalize_headings_list false root.children).1

/-! ## Footer content relocation (move_footer_elements)

The source works with object identity and parent pointers; the embedding
identifies a node occurrence by its path (list of child indices from the
root). A node is a descendant of another exactly when its path strictly
extends the other path. Moving a node that contains (or is) the relocation
target footer makes the moved subtree unreachable from the root in the
source; observably the tree simply loses those candidates, which is what the
rebuild below produces, because it never walks into a dropped subtree. -/

/-- Candidate test of move_footer_elements on one element: candidate tag,
copyright pattern in the text, no footer ancestor, stripped text of at most
400 characters. The script also skips script, style and noscript elements
themselves, which is redundant because the candidate tag set excludes them. -/
def fm_is_candidate (footer_anc : Bool) (node : Node) : Bool :=
  match node.tag with
  | none => false
  | some t =>
    !(t == "script" || t == "style" || t == "noscript") &&
    FOOTER_CANDIDATE_TAGS.contains t &&
    footer_pattern_matches (get_text node) &&
    !footer_anc &&
    (str_strip (get_text node)).length ≤ 400

mutual
/-- Candidate collection of move_footer_elements: preorder over tagged nodes
(iter_tags), with the path and the footer ancestor flag threaded down. -/
def footer_candidates_node (path : List Nat) (footer_anc : Bool) :
    Node → List (List Nat × Node)
  | .mk (some t) a cs x d m =>
    let node := Node.mk (some t) a cs x d m
    (if fm_is_candidate footer_anc node then [(path, node)] else []) ++
      footer_candidates_list path (footer_anc || t == "footer") 0 cs
  | .mk none _ _ _ _ _ => []

def footer_candidates_list (path : List Nat) (footer_anc : Bool) :
    Nat → List Node → List (List Nat × Node)
  | _, [] => []
  | i, c :: rest =>
    footer_candidates_node (path ++ [i]) footer_anc c ++
      footer_candidates_list path footer_anc (i + 1) rest
end

mutual
/-- Path of the first element with the given tag in the preorder walk of
iter_tags, mirroring next(iter_tags(root, name), None). -/
def find_tag_path_node (name : String) (path : List Nat) : Node → Option (List Nat)
  | .mk (some t) _ cs _ _ _ =>
    if t == name then some path else find_tag_path_list name path 0 cs
  | .mk none _ _ _ _ _ => none

def find_tag_path_list (name : String) (path : List Nat) : Nat → List Node → Option (List Nat)
  | _, [] => none
  | i, c :: rest =>
    match find_tag_path_node name (path ++ [i]) c with
    | some p => some p
    | none => find_tag_path_list name path (i + 1) rest
end

/-- First matching element below the root, as iter_tags never yields the
root itself. -/
def find_tag_path (root : Node) (name : String) : Option (List Nat) :=
  find_tag_path_list name [] 0 root.children

/-- Node of a tree at a path. -/
def get_at_path : List Nat → Node → Option Node
  | [], n => some n
  | i :: p, n =>
    match n.children.get? i with
    | some c => get_at_path p c
    | none => none

/-- Apply a function to the node at a path, leaving the rest of the tree
unchanged (a path that leaves the tree changes nothing; the source only ever
rewrites at paths that its own searches produced). -/
def update_at : List Nat → (Node → Node) → Node → Node
  | [], f, n => f n
  | i :: p, f, n =>
    match n.children.get? i with
    | none => n
    | some c => n.withChildren (n.children.set i (update_at p f c))

/-- Index of the first footer child, mirroring
next((node for node in main.children if node.tag == "footer"), None). -/
def find_footer_index : Nat → List Node → Option Nat
  | _, [] => none
  | i, c :: rest => if c.tag == some "footer" then some i else find_footer_index (i + 1) rest

mutual
/-- Simultaneous rebuild of the move loop of move_footer_elements: drop every
subtree whose path is in cand_paths, and append plant to the children of the
node at plant_path. Paths refer to the tree before the rebuild; the dropped
candidates are pairwise disjoint and none of them lies inside the relocation
target footer, so the simultaneous rewrite agrees with the sequential moves
of the source. -/
def fm_rebuild (cand_paths : List (List Nat)) (plant_path : List Nat) (plant : List Node) :
    List Nat → Node → Node
  | cur, .mk t a cs x d m =>
    let cs2 := fm_rebuild_list cand_paths plant_path plant cur 0 cs
    .mk t a (if cur = plant_path then cs2 ++ plant else cs2) x d m

def fm_rebuild_list (cand_paths : List (List Nat)) (plant_path : List Nat) (plant : List Node) :
    List Nat → Nat → List Node → List Node
  | _, _, [] => []
  | cur, i, c :: rest =>
    if (cur ++ [i]) ∈ cand_paths then
      fm_rebuild_list cand_paths plant_path plant cur (i + 1) rest
    else
      fm_rebuild cand_paths plant_path plant (cur ++ [i]) c ::
        fm_rebuild_list cand_paths plant_path plant cur (i + 1) rest
end

/-- Locate or synthesize the footer under main and perform the moves. When a
footer child of main exists, the candidate values are appended to it; when it
does not, a fresh footer holding them is appended to main. If the footer
location lies inside a dropped candidate the plant path is never reached,
which matches the source, where the moved subtree (now holding the footer)
is unreachable from the root. -/
def fm_finish (root : Node) (main_path : List Nat) (cands : List (List Nat × Node)) : Node :=
  let cand_paths := cands.map (fun pc => pc.1)
  let vals := cands.map (fun pc => pc.2)
  match get_at_path main_path root with
  | none => root
  | some main_node =>
    match find_footer_index 0 main_node.children with
    | some j => fm_rebuild cand_paths (main_path ++ [j]) vals [] root
    | none => fm_rebuild cand_paths main_path [Node.elem "footer" [] vals] [] root

/-- Remap a candidate path through the synthesis of main: the children of
body are reparented one level down, under the new main at child index 0. -/
def fm_remap (body_path p : List Nat) : List Nat :=
  if body_path.isPrefixOf p then
    body_path ++ 0 :: p.drop body_path.length
  else p

/-- Candidate list of move_footer_elements on a whole document. -/
def fm_candidates (root : Node) : List (List Nat × Node) :=
  footer_candidates_list [] false 0 root.children

/-- Keep only the outermost candidates: drop everyone that is a descendant
of (has a path strictly extending the path of) another candidate. -/
def fm_filtered_of (candidates : List (List Nat × Node)) : List (List Nat × Node) :=
  candidates.filter (fun pc =>
    !(candidates.any (fun qc => qc.1 != pc.1 && qc.1.isPrefixOf pc.1)))

/-- Synthesis of main: all children of body are reparented under a fresh
main element, which becomes the only child of body. -/
def fm_wrap_body (body : Node) : Node :=
  body.withChildren [Node.elem "main" [] body.children]

/-- Embedding of move_footer_elements from the source. -/
def move_footer_elements (root : Node) : Node :=
  let candidates := fm_candidates root
  if candidates.isEmpty then root
  else
    match find_tag_path root "main" with
    | some main_path => fm_finish root main_path (fm_filtered_of candidates)
    | none =>
      match find_tag_path root "body" with
      | none => root
      | some body_path =>
        fm_finish (update_at body_path fm_wrap_body root) (body_path ++ [0])
          ((fm_filtered_of candidates).map (fun pc => (fm_remap body_path pc.1, pc.2)))

/-! ## Canonical serializer (render_attributes, render_node, render_document) -/

/-- Model of html.escape with quote=True: ampersand, angle brackets, double
quote and single quote become entities. The sequential replacements of the
library function agree with this character wise map. -/
def escape_char (c : Char) : List Char :=
  if c = '&' then "&amp;".data
  else if c = '<' then "&lt;".data
  else if c = '>' then "&gt;".data
  else if c = '"' then "&quot;".data
  else if c = '\'' then "&#x27;".data
  else [c]

/-- Model of html.escape with quote=True on a string. -/
def escape_html (s : String) : String :=
  ⟨(s.data.map escape_char).join⟩

/-- Embedding of render_attributes. The branch of the source for a None
value is unreachable here because attribute values are always strings. -/
def render_attributes (attrs : List (String × String)) : String :=
  String.join (attrs.map (fun kv => " " ++ kv.1 ++ "=\"" ++ escape_html kv.2 ++ "\""))

/-- Two spaces per indentation level. -/
def indent_str (n : Nat) : String :=
  String.join (List.replicate n "  ")

/-- Join strings with a separator, as str.join does. -/
def join_sep (sep : String) : List String → String
  | [] => ""
  | [s] => s
  | s :: rest => s ++ sep ++ join_sep sep rest

mutual
/-- Embedding of render_node from the source. The source formats a doctype
as an f string of its text, which prints the literal None when the text is
missing; the comment branch substitutes the empty string instead. -/
def render_node : Node → Nat → Bool → String
  | .mk _ _ _ x true _, _, _ => "<!" ++ x.getD "None" ++ ">"
  | .mk _ _ _ x false true, indent, _ =>
    indent_str indent ++ "<!--" ++ x.getD "" ++ "-->"
  | .mk none _ _ x false false, indent, preserve =>
    let text := x.getD ""
    if preserve || str_strip text == "" then text
    else indent_str indent ++ str_strip text
  | .mk (some tag) attrs cs _ false false, indent, preserve =>
    let ind := indent_str indent
    let a := render_attributes attrs
    if VOID_ELEMENTS.contains tag then
      ind ++ "<" ++ tag ++ a ++ ">"
    else
      let preserve_children := preserve || PRESERVE_WHITESPACE_TAGS.contains tag
      let child_strings :=
        (render_node_list cs (indent + 1) preserve_children).filter (fun s => s != "")
      if child_strings.isEmpty then
        ind ++ "<" ++ tag ++ a ++ "></" ++ tag ++ ">"
      else if preserve_children then
        ind ++ "<" ++ tag ++ a ++ ">" ++ String.join child_strings ++ "</" ++ tag ++ ">"
      else
        ind ++ "<" ++ tag ++ a ++ ">\n" ++ join_sep "\n" child_strings ++ "\n" ++ ind ++
          "</" ++ tag ++ ">"

def render_node_list : List Node → Nat → Bool → List String
  | [], _, _ => []
  | c :: rest, indent, preserve => render_node c indent preserve :: render_node_list rest indent preserve
end

/-- Model of str.splitlines for text that contains no carriage returns and no
trailing newline, which is the shape of the text indent_block receives. -/
def split_lines (s : String) : List String :=
  (s.data.splitOn '\n').map (fun cs => (⟨cs⟩ : String))

/-- Embedding of indent_block from the source. -/
def indent_block (text : String) (level : Nat) : String :=
  join_sep "\n"
    ((split_lines text).map (fun line => if line != "" then indent_str level ++ line else line))

/-- Embedding of render_document from the source. The identity test child is
doctype of the source is modeled by the index of the first doctype child. -/
def render_document (root : Node) : String :=
  let doctype := root.children.find? (fun c => c.is_doctype)
  let html_node := root.children.find? (fun c => c.tag == some "html")
  let part1 := match doctype with
    | some d => render_node d 0 false
    | none => "<!DOCTYPE html>"
  match html_node with
  | some h => part1 ++ "\n" ++ render_node h 0 false ++ "\n"
  | none =>
    let di := root.children.findIdx? (fun c => c.is_doctype)
    let content_parts :=
      ((root.children.enum.filter (fun ic => some ic.1 ≠ di)).map
        (fun ic => render_node ic.2 0 false)).filter (fun s => s != "")
    if content_parts.isEmpty then part1 ++ "\n"
    else
      part1 ++ "\n<html>\n  <body>\n" ++ indent_block (join_sep "\n" content_parts) 2 ++
        "\n  </body>\n</html>\n"

/-! ## Tree builder (DOMBuilder)

The builder consumes the event stream of the tokenizing parser. The source
links a new element into the tree at its start tag and keeps an alias on the
open element stack; the embedding keeps the node under construction only on
the stack and links it into its parent when it is popped, which yields the
same tree (nothing is ever appended to a non top frame while a child frame
is open). The source stores the stack bottom first and appends at the end;
the embedding stores it top first, so that every stack operation is head
surgery. List operations that the source performs on the stack are modeled
with Option results, so that the totality of the builder is a theorem and
not an assumption. -/

/-- Structural events produced by the tokenizing parser. -/
inductive HEvent where
  | starttag (tag : String) (attrs : List (String × String))
  | startendtag (tag : String) (attrs : List (String × String))
  | endtag (tag : String)
  | data (s : String)
  | comment (s : String)
  | decl (s : String)

/-- Python dict semantics for the attribute pairs handed to handle_starttag:
a repeated name keeps its first position and takes the last value. -/
def dict_of (pairs : List (String × String)) : List (String × String) :=
  pairs.foldl (fun acc kv => attrs_set acc kv.1 kv.2) []

/-- Append a child to the node on top of the stack (the stack is stored top
first here). -/
def stack_append_top (stack : List Node) (child : Node) : Option (List Node) :=
  match stack with
  | [] => none
  | top :: rest => some (top.withChildren (top.children ++ [child]) :: rest)

/-- Embedding of DOMBuilder.handle_starttag: append a fresh element and push
it unless its tag is a void element (the deferred link of the embedding
makes the append of the source implicit in the later pop). -/
def handle_starttag (stack : List Node) (tag : String) (attrs : List (String × String)) :
    Option (List Node) :=
  let node := Node.elem tag (dict_of attrs) []
  if VOID_ELEMENTS.contains tag then stack_append_top stack node
  else some (node :: stack)

/-- Embedding of DOMBuilder.handle_startendtag: append but never push. -/
def handle_startendtag (stack : List Node) (tag : String) (attrs : List (String × String)) :
    Option (List Node) :=
  stack_append_top stack (Node.elem tag (dict_of attrs) [])

/-- Scan of handle_endtag, mirroring range(len(stack) - 1, 0, -1): the
distance from the top of the nearest frame with the matching tag, the bottom
frame (the root, index 0 in the source) excluded. -/
def endtag_scan : List Node → String → Option Nat
  | [], _ => none
  | f :: rest, tag =>
    match rest with
    | [] => none
    | _ :: _ =>
      if f.tag == some tag then some 0
      else (endtag_scan rest tag).map (fun d => d + 1)

/-- Pop the given number of frames, folding each popped top into the frame
below it (the link that the source already made at the start tag). -/
def pop_frames : Nat → List Node → Option (List Node)
  | 0, stack => some stack
  | k + 1, top :: next :: rest =>
    pop_frames k (next.withChildren (next.children ++ [top]) :: rest)
  | _ + 1, _ => none

/-- Embedding of DOMBuilder.handle_endtag: pop down to and including the
nearest matching element (distance d from the top means d plus one frames
are popped), or ignore the end tag when nothing matches. -/
def handle_endtag (stack : List Node) (tag : String) : Option (List Node) :=
  match endtag_scan stack tag with
  | none => some stack
  | some d => pop_frames (d + 1) stack

/-- Embedding of DOMBuilder.handle_data: empty data is dropped, other data
becomes a text node appended to the top of the stack. -/
def handle_data (stack : List Node) (s : String) : Option (List Node) :=
  if s == "" then some stack else stack_append_top stack (Node.textNode s)

/-- One event step of the builder. -/
def builder_step (stack : List Node) : HEvent → Option (List Node)
  | .starttag t a => handle_starttag stack t a
  | .startendtag t a => handle_startendtag stack t a
  | .endtag t => handle_endtag stack t
  | .data s => handle_data stack s
  | .comment s => stack_append_top stack (Node.commentNode s)
  | .decl s => stack_append_top stack (Node.doctypeNode s)

/-- Run the builder over an event list from a given stack. -/
def builder_run_from (stack : List Node) : List HEvent → Option (List Node)
  | [] => some stack
  | e :: es =>
    match builder_step stack e with
    | none => none
    | some s2 => builder_run_from s2 es

/-- The initial stack: the synthetic root is the only frame. -/
def builder_init : List Node :=
  [Node.elem "root" [] []]

/-- Build a document tree from an event list: run the builder and fold every
still open frame into the root (the source left those frames linked into the
tree already; close pops nothing). -/
def build_dom (events : List HEvent) : Option Node :=
  (builder_run_from builder_init events).bind
    (fun st => (pop_frames (st.length - 1) st).bind (fun st2 => st2.head?))

/-! ## Tokenizing parser (modelled from the spec)

The source delegates tokenization to the standard library HTMLParser (with
convert_charrefs=True), whose code is not part of this repository; only its
event callbacks are. The spec describes the component: it turns raw markup
into start tag, self closing tag, end tag, text, comment and doctype events,
lowercases tag names, and resolves character references to literal
characters during tokenization. -/

/-- Modelled from the spec: character reference resolution (the spec states
that entities are normalized once during tokenization). Named references for
the common escapes plus decimal numeric references are resolved; anything
else stays verbatim. Fuel bounds the recursion; one unit per character is
always enough because every step consumes at least one character. -/
def decode_entities_go : Nat → List Char → List Char
  | 0, cs => cs
  | _ + 1, [] => []
  | fuel + 1, '&' :: rest =>
    if "amp;".data.isPrefixOf rest then '&' :: decode_entities_go fuel (rest.drop 4)
    else if "lt;".data.isPrefixOf rest then '<' :: decode_entities_go fuel (rest.drop 3)
    else if "gt;".data.isPrefixOf rest then '>' :: decode_entities_go fuel (rest.drop 3)
    else if "quot;".data.isPrefixOf rest then '"' :: decode_entities_go fuel (rest.drop 5)
    else if "apos;".data.isPrefixOf rest then '\'' :: decode_entities_go fuel (rest.drop 5)
    else if "copy;".data.isPrefixOf rest then '©' :: decode_entities_go fuel (rest.drop 5)
    else if "nbsp;".data.isPrefixOf rest then ' ' :: decode_entities_go fuel (rest.drop 5)
    else
      match rest with
      | '#' :: rest2 =>
        let digits := rest2.takeWhile Char.isDigit
        if digits.isEmpty then '&' :: decode_entities_go fuel rest
        else
          match rest2.drop digits.length with
          | ';' :: rest3 =>
            Char.ofNat (String.toNat! ⟨digits⟩) :: decode_entities_go fuel rest3
          | _ => '&' :: decode_entities_go fuel rest
      | _ => '&' :: decode_entities_go fuel rest
  | fuel + 1, c :: rest => c :: decode_entities_go fuel rest

/-- Character reference resolution on a character list. -/
def decode_entities (cs : List Char) : List Char :=
  decode_entities_go cs.length cs

/-- Characters allowed in a tag or attribute name by this model. -/
def is_name_char (c : Char) : Bool :=
  c.isAlphanum || c = '-' || c = ':' || c = '_'

/-- Characters of a comment body: everything up to the closing sequence. -/
def take_until_close : List Char → List Char
  | [] => []
  | c :: rest =>
    if "-->".data.isPrefixOf (c :: rest) then [] else c :: take_until_close rest

/-- Modelled from the spec: attribute parsing inside a start tag, consuming
characters until the closing angle bracket and reporting whether the tag was
self closing. Values may be double quoted, single quoted or bare; a bare
name gets the empty value (the builder turns the None of the library into
the empty string anyway). Character references in values are resolved. -/
def parse_attrs : Nat → List Char → List (String × String) →
    (List (String × String) × Bool × List Char)
  | 0, cs, acc => (acc, false, cs)
  | fuel + 1, cs, acc =>
    match cs.dropWhile Char.isWhitespace with
    | [] => (acc, false, [])
    | '>' :: rest => (acc, false, rest)
    | '/' :: rest =>
      (match rest.dropWhile Char.isWhitespace with
       | '>' :: rest2 => (acc, true, rest2)
       | other => parse_attrs fuel other acc)
    | other =>
      let name := other.takeWhile (fun c => !(c.isWhitespace || c = '=' || c = '>' || c = '/'))
      if name.isEmpty then parse_attrs fuel (other.drop 1) acc
      else
        match (other.drop name.length).dropWhile Char.isWhitespace with
        | '=' :: cs3 =>
          (match cs3.dropWhile Char.isWhitespace with
           | '"' :: cs4 =>
             let v := cs4.takeWhile (fun c => c != '"')
             parse_attrs fuel (cs4.drop (v.length + 1))
               (acc ++ [(⟨lower_chars name⟩, ⟨decode_entities v⟩)])
           | '\'' :: cs4 =>
             let v := cs4.takeWhile (fun c => c != '\'')
             parse_attrs fuel (cs4.drop (v.length + 1))
               (acc ++ [(⟨lower_chars name⟩, ⟨decode_entities v⟩)])
           | cs4 =>
             let v := cs4.takeWhile (fun c => !(c.isWhitespace || c = '>'))
             parse_attrs fuel (cs4.drop v.length)
               (acc ++ [(⟨lower_chars name⟩, ⟨decode_entities v⟩)]))
        | cs3 => parse_attrs fuel cs3 (acc ++ [(⟨lower_chars name⟩, "")])

/-- Modelled from the spec: the tokenizing parser. Markup is turned into the
event stream described in the spec overview: comments, doctype declarations,
end tags, start tags (self closing detected), and text runs with character
references resolved. Tag names are lowercased. Fuel bounds the recursion;
every emitted event consumes at least one character. -/
def tokenize_go : Nat → List Char → List HEvent
  | 0, _ => []
  | _ + 1, [] => []
  | fuel + 1, '<' :: rest =>
    match rest with
    | '!' :: '-' :: '-' :: body =>
      let c := take_until_close body
      .comment ⟨c⟩ :: tokenize_go fuel (body.drop (c.length + 3))
    | '!' :: body =>
      let c := body.takeWhile (fun ch => ch != '>')
      .decl ⟨c⟩ :: tokenize_go fuel (body.drop (c.length + 1))
    | '/' :: body =>
      let name := body.takeWhile is_name_char
      let after := (body.drop name.length).dropWhile (fun ch => ch != '>')
      .endtag ⟨lower_chars name⟩ :: tokenize_go fuel (after.drop 1)
    | c :: _ =>
      if c.isAlpha then
        let name := rest.takeWhile is_name_char
        let (attrs, selfc, rest2) := parse_attrs rest.length (rest.drop name.length) []
        (if selfc then HEvent.startendtag ⟨lower_chars name⟩ attrs
         else HEvent.starttag ⟨lower_chars name⟩ attrs) :: tokenize_go fuel rest2
      else
        .data "<" :: tokenize_go fuel rest
    | [] => [.data "<"]
  | fuel + 1, cs =>
    let t := cs.takeWhile (fun ch => ch != '<')
    .data ⟨decode_entities t⟩ :: tokenize_go fuel (cs.drop t.length)

/-- Modelled from the spec: tokenize a whole input string. -/
def tokenize (s : String) : List HEvent :=
  tokenize_go s.data.length s.data

/-- Embedding of parse_html from the source: build the tree from the event
stream of the tokenizer. The totality theorem below shows the Option of
build_dom is never none, so the default is never used. -/
def parse_html (content : String) : Node :=
  (build_dom (tokenize content)).getD (Node.elem "root" [] [])

/-! ## The rewrite pipeline -/

/-- Embedding of the pipeline portion of process_file from the source: the
seven passes in the order in which the source applies them, whitespace
normalization (ensure_matching_sections) coming last. -/
def process_pipeline (root : Node) : Node :=
  let root := remove_redundant_wrappers root
  let root := remove_empty_headings root
  let root := remove_empty_italics root
  let root := add_alt_text root
  let root := normalize_headings root
  let root := move_footer_elements root
  ensure_matching_sections root

/-- Modelled from the spec: the pass order written in section 4.3 of the
spec, whitespace normalization first and footer relocation last. This is the
comparison point for the ordering claim; the source order is
process_pipeline. -/
def spec_order_pipeline (root : Node) : Node :=
  let root := ensure_matching_sections root
  let root := remove_redundant_wrappers root
  let root := remove_empty_headings root
  let root := remove_empty_italics root
  let root := add_alt_text root
  let root := normalize_headings root
  move_footer_elements root

/-- The whole parse, normalize, serialize pipeline of process_file. -/
def cleanup_pipeline (s : String) : String :=
  render_document (process_pipeline (parse_html s))

/-! ## Predicates used by the stated properties -/

/-- Void tag test. -/
def is_void_tag : Option String → Bool
  | some t => VOID_ELEMENTS.contains t
  | none => false

mutual
/-- The void element invariant: no node tagged as a void element has any
children, anywhere in the tree. -/
def void_ok : Node → Bool
  | .mk t a cs x d m =>
    (!(is_void_tag t) || cs.isEmpty) && void_ok_list cs

def void_ok_list : List Node → Bool
  | [] => true
  | c :: cs => void_ok c && void_ok_list cs
end

/-- A heading element with non empty stripped text, the population that
normalize_headings works on. -/
def heading_with_text (n : Node) : Bool :=
  (match n.tag with
   | some t => HEADING_TAGS.contains t
   | none => false) && str_strip (get_text n) != ""

mutual
/-- Tags of the headings with non empty text, in the preorder of iter_tags
(which only descends into tagged nodes). -/
def heading_tags_node : Node → List String
  | .mk (some t) a cs x d m =>
    (if heading_with_text (.mk (some t) a cs x d m) then [t] else []) ++ heading_tags_list cs
  | .mk none _ _ _ _ _ => []

def heading_tags_list : List Node → List String
  | [] => []
  | c :: cs => heading_tags_node c ++ heading_tags_list cs
end

/-- Heading tag list below a root, as iter_tags never yields the root. -/
def heading_tags (root : Node) : List String :=
  heading_tags_list root.children

/-- The retagging that the spec prescribes for the document ordered list of
non empty headings: the first becomes h1, every later one is demoted from h1
to h2 or promoted from h4, h5 or h6 to h3. -/
def spec_head_map : List String → List String
  | [] => []
  | _ :: rest => "h1" :: rest.map demote_tag

/-- The relocation target of fm_finish is clear when no moved candidate
contains or equals it: in the source those moves would make the target
footer unreachable from the root and silently drop the moved content. -/
def fm_target_clear (root : Node) (main_path : List Nat) (cands : List (List Nat × Node)) : Bool :=
  match get_at_path main_path root with
  | none => true
  | some main_node =>
    let pp := match find_footer_index 0 main_node.children with
      | some j => main_path ++ [j]
      | none => main_path
    !(cands.any (fun pc => pc.1.isPrefixOf pp))

/-- Whole document version of fm_target_clear, following the branch
structure of move_footer_elements. -/
def footer_target_clear (root : Node) : Bool :=
  let candidates := fm_candidates root
  if candidates.isEmpty then true
  else
    match find_tag_path root "main" with
    | some main_path => fm_target_clear root main_path (fm_filtered_of candidates)
    | none =>
      match find_tag_path root "body" with
      | none => true
      | some body_path =>
        fm_target_clear (update_at body_path fm_wrap_body root) (body_path ++ [0])
          ((fm_filtered_of candidates).map (fun pc => (fm_remap body_path pc.1, pc.2)))

/-! ## Theorems -/

theorem node_size_pos (n : Node) : 0 < node_size n := by
  cases n with
  | mk t a cs x d m => simp [node_size]

/-- The fuel of the unwrap loop is sufficient: once it ends, a full scan
finds no further qualifying div. -/
theorem rrw_loop_fix : ∀ (fuel : Nat) (r : Node), node_size r ≤ fuel →
    rrw_step (rrw_loop fuel r) = none := by
  intro fuel
  induction fuel with
  | zero =>
    intro r hr
    exact absurd hr (by have := node_size_pos r; omega)
  | succ n ih =>
    intro r hr
    rw [rrw_loop]
    cases h : rrw_step r with
    | none => exact h
    | some r2 =>
      have hs := rrw_step_size r r2 h
      exact ih r2 (by omega)

/-- After remove_redundant_wrappers finishes, a full scan finds no further
qualifying div. -/
theorem rrw_step_of_result (root : Node) :
    rrw_step (remove_redundant_wrappers root) = none :=
  rrw_loop_fix (node_size root) root le_rfl

/-- Claim C9: the redundant wrapper unwrapping pass is a fixpoint pass:
running remove_redundant_wrappers a second time on a tree it has already
processed changes nothing, and no qualifying attribute free wrapper div
remains after it (a full scan step finds nothing). -/
theorem c9_wrapper_fixpoint (t : Node) :
    remove_redundant_wrappers (remove_redundant_wrappers t) = remove_redundant_wrappers t ∧
    rrw_step (remove_redundant_wrappers t) = none := by
  have h := rrw_step_of_result t
  refine ⟨?_, h⟩
  have key : ∀ r : Node, rrw_step r = none → remove_redundant_wrappers r = r := by
    intro r hr
    have hpos := node_size_pos r
    obtain ⟨k, hk⟩ : ∃ k, node_size r = k + 1 := ⟨node_size r - 1, by omega⟩
    unfold remove_redundant_wrappers
    rw [hk]
    simp [rrw_loop, hr]
  exact key _ h

/-- Claim C1: the spec states that textContent of a Comment or Doctype node
is the empty string and that textContent concatenates only descendant Text
node contents. In the source, get_text tests tag is None before testing
is_comment or is_doctype, and comments and doctypes have tag None, so the
empty string branch is dead code: a comment returns its body text, a doctype
returns its declaration text, and both leak into the text of ancestors. -/
theorem c1_get_text_comment_leaks :
    get_text (Node.commentNode "x") = "x" ∧
    get_text (Node.doctypeNode "DOCTYPE html") = "DOCTYPE html" ∧
    get_text (Node.elem "h2" [] [Node.commentNode "x"]) = "x" := by
  decide

/-- Claim C2 counterexample: the source pipeline (process_file) runs
whitespace normalization last, not first as the section 4.3 listing of the
spec orders the passes. On a paragraph whose text is creative commons with a
tab between the words, the spec order rewrites the tab to a space before
footer relocation, so the copyright pattern matches and the paragraph is
relocated; the source order runs footer relocation on the raw text, where
the pattern does not match, and fixes the tab only afterwards. -/
theorem c2_counterexample :
    spec_order_pipeline (Node.elem "root" []
        [Node.elem "body" [] [Node.elem "p" [] [Node.textNode "creative\tcommons"]]]) ≠
      process_pipeline (Node.elem "root" []
        [Node.elem "body" [] [Node.elem "p" [] [Node.textNode "creative\tcommons"]]]) := by
  decide

/-- Claim C2 amended: process_file applies the rewrite passes strictly in
the order redundant wrapper unwrapping, empty heading removal, empty italic
removal, alt text injection, heading normalization, footer relocation, and
whitespace normalization last. -/
theorem c2_amended_pipeline_order (t : Node) :
    process_pipeline t =
      ensure_matching_sections (move_footer_elements (normalize_headings (add_alt_text
        (remove_empty_italics (remove_empty_headings (remove_redundant_wrappers t)))))) := rfl

/-- Claim C10: when the tree contains no main element and no body element
(the searches of the source find neither), the footer relocation pass
returns the tree unchanged, even when copyright matching candidates exist. -/
theorem c10_no_main_no_body_unchanged (t : Node)
    (hm : find_tag_path t "main" = none) (hb : find_tag_path t "body" = none) :
    move_footer_elements t = t := by
  simp [move_footer_elements, hm, hb]

/-- Claim C10 witness: a document with a copyright matching div but neither
main nor body is left untouched. -/
theorem c10_witness :
    find_tag_path (Node.elem "root" [] [Node.elem "div" [] [Node.textNode "© 2024"]]) "main"
        = none ∧
    find_tag_path (Node.elem "root" [] [Node.elem "div" [] [Node.textNode "© 2024"]]) "body"
        = none ∧
    footer_pattern_matches (get_text (Node.elem "div" [] [Node.textNode "© 2024"])) = true ∧
    move_footer_elements (Node.elem "root" [] [Node.elem "div" [] [Node.textNode "© 2024"]]) =
      Node.elem "root" [] [Node.elem "div" [] [Node.textNode "© 2024"]] :=
  ⟨by decide, by decide, by decide,
    c10_no_main_no_body_unchanged _ (by decide) (by decide)⟩

/-- Claim C4: the spec asserts that the parse, normalize, serialize pipeline
is byte stable under reapplication for every input. The serializer emits the
contents of text nodes verbatim, without escaping the ampersand (the spec
data model says escaping occurs at serialization), so a text node holding
the characters a&lt;b is written literally, the second parse resolves the
character reference to a<b, and the second output differs from the first. -/
theorem c4_pipeline_not_idempotent :
    cleanup_pipeline (cleanup_pipeline "<p>a&amp;lt;b</p>") ≠
      cleanup_pipeline "<p>a&amp;lt;b</p>" := by
  have h1 : cleanup_pipeline "<p>a&amp;lt;b</p>" =
      "<!DOCTYPE html>\n<html>\n  <body>\n    <p>\n      a&lt;b\n    </p>\n  </body>\n</html>\n" := by
    decide
  rw [h1]
  decide

theorem Node.tag_withChildren (n : Node) (cs : List Node) :
    (n.withChildren cs).tag = n.tag := by
  cases n with
  | mk t a c x d m => rfl

/-- When no frame above the bottom matches, the scan finds nothing. -/
theorem endtag_scan_none (stack : List Node) (t : String)
    (h : ∀ d n, d + 1 < stack.length → stack.get? d = some n → n.tag ≠ some t) :
    endtag_scan stack t = none := by
  induction stack with
  | nil => rfl
  | cons f rest ih =>
    cases rest with
    | nil => rfl
    | cons g rest2 =>
      have hf : (f.tag == some t) = false := by
        have := h 0 f (by simp) rfl
        simpa using this
      rw [endtag_scan, hf]
      simp only [Bool.false_eq_true, if_false]
      rw [ih ?_]
      · rfl
      · intro d n hd hget
        exact h (d + 1) n (by simpa using hd) (by simpa using hget)

/-- The scan finds the distance of the nearest matching frame above the
bottom. -/
theorem endtag_scan_some (t : String) :
    ∀ (d : Nat) (stack : List Node) (n : Node), stack.get? d = some n → n.tag = some t →
      d + 1 < stack.length →
      (∀ e m, e < d → stack.get? e = some m → m.tag ≠ some t) →
      endtag_scan stack t = some d := by
  intro d
  induction d with
  | zero =>
    intro stack n hget htag hlen _
    cases stack with
    | nil => cases hget
    | cons f rest =>
      cases rest with
      | nil => simp at hlen
      | cons g rest2 =>
        simp only [List.get?] at hget
        cases hget
        rw [endtag_scan]
        simp [htag]
  | succ d ih =>
    intro stack n hget htag hlen hmin
    cases stack with
    | nil => cases hget
    | cons f rest =>
      cases rest with
      | nil =>
        cases rest_empty : ([] : List Node) with
        | _ =>
          simp only [List.length_cons, List.length_nil] at hlen
          have : d + 1 < 0 := by omega
          exact absurd this (by omega)
      | cons g rest2 =>
        have hf : (f.tag == some t) = false := by
          have := hmin 0 f (by omega) rfl
          simpa using this
        rw [endtag_scan, hf]
        simp only [Bool.false_eq_true, if_false]
        rw [ih (g :: rest2) n (by simpa using hget) htag (by simpa using hlen) ?_]
        · rfl
        · intro e m he hgete
          exact hmin (e + 1) m (by omega) (by simpa using hgete)

/-- Popping k frames succeeds whenever k frames sit above something, and the
open tag sequence of the result is the old one with the top k entries
removed (folding a frame into its parent does not change any tag). -/
theorem pop_frames_spec :
    ∀ (k : Nat) (stack : List Node), k < stack.length →
      ∃ st2, pop_frames k stack = some st2 ∧
        st2.map Node.tag = (stack.map Node.tag).drop k ∧
        st2.length = stack.length - k := by
  intro k
  induction k with
  | zero =>
    intro stack _
    exact ⟨stack, rfl, by simp, by simp⟩
  | succ k ih =>
    intro stack hlen
    cases stack with
    | nil => simp at hlen
    | cons top rest =>
      cases rest with
      | nil => simp at hlen
      | cons next rest2 =>
        have hlen2 : k < (next.withChildren (next.children ++ [top]) :: rest2).length := by
          simp at hlen ⊢; omega
        obtain ⟨st2, hpop, hmap, hl⟩ := ih _ hlen2
        refine ⟨st2, ?_, ?_, ?_⟩
        · rw [pop_frames]; exact hpop
        · rw [hmap]
          simp [Node.tag_withChildren]
        · simp at hl ⊢; omega

/-- Claim C5: on an end tag event, when some frame above the root carries
the matching tag, the stack is popped down to and including the nearest such
frame (here distance d from the top, so d plus one frames go), implicitly
closing every unmatched frame above it; when no frame above the root
matches, the end tag is discarded and the stack is unchanged. -/
theorem c5_endtag_behavior (stack : List Node) (t : String) :
    ((∀ d n, d + 1 < stack.length → stack.get? d = some n → n.tag ≠ some t) →
      handle_endtag stack t = some stack) ∧
    (∀ d n, stack.get? d = some n → n.tag = some t → d + 1 < stack.length →
      (∀ e m, e < d → stack.get? e = some m → m.tag ≠ some t) →
      ∃ st2, handle_endtag stack t = some st2 ∧
        st2.map Node.tag = (stack.map Node.tag).drop (d + 1) ∧
        st2.length = stack.length - (d + 1)) := by
  constructor
  · intro h
    unfold handle_endtag
    rw [endtag_scan_none stack t h]
  · intro d n hget htag hlen hmin
    unfold handle_endtag
    rw [endtag_scan_some t d stack n hget htag hlen hmin]
    exact pop_frames_spec (d + 1) stack hlen

/-- Claim C5 witness: the stack for <b><i>text, on the end tag b: both the i
and the b frame are closed, only the root remains. -/
theorem c5_witness :
    (Node.elem "i" [] [Node.textNode "text"] :: Node.elem "b" [] [] ::
        Node.elem "root" [] [] :: []).get? 1 = some (Node.elem "b" [] []) ∧
    ∃ st2,
      handle_endtag (Node.elem "i" [] [Node.textNode "text"] :: Node.elem "b" [] [] ::
        Node.elem "root" [] [] :: []) "b" = some st2 ∧
      st2.map Node.tag = [some "root"] ∧
      st2.length = 1 :=
  ⟨by decide,
    (c5_endtag_behavior _ "b").2 1 (Node.elem "b" [] []) (by decide) (by decide) (by decide)
      (fun e m he hg => by
        interval_cases e
        · simp only [List.get?] at hg
          cases hg
          decide)⟩

theorem stack_append_top_some (stack : List Node) (c : Node) (h : stack ≠ []) :
    ∃ s2, stack_append_top stack c = some s2 ∧ s2 ≠ [] := by
  cases stack with
  | nil => exact absurd rfl h
  | cons top rest => exact ⟨_, rfl, by simp⟩

/-- A successful scan always points strictly above the bottom frame. -/
theorem endtag_scan_lt (t : String) :
    ∀ (stack : List Node) (d : Nat), endtag_scan stack t = some d → d + 1 < stack.length := by
  intro stack
  induction stack with
  | nil => intro d h; cases h
  | cons f rest ih =>
    intro d h
    cases rest with
    | nil => cases h
    | cons g rest2 =>
      rw [endtag_scan] at h
      by_cases hf : (f.tag == some t) = true
      · rw [if_pos hf] at h
        cases h
        simp
      · rw [if_neg hf] at h
        cases h2 : endtag_scan (g :: rest2) t with
        | none => rw [h2] at h; cases h
        | some d2 =>
          rw [h2] at h
          have hd : d = d2 + 1 := by simpa using h.symm
          subst hd
          have := ih d2 h2
          simp only [List.length_cons] at this ⊢
          omega

/-- Every builder step succeeds on a non empty stack and keeps it non
empty: the root frame is never popped. -/
theorem builder_step_some (stack : List Node) (e : HEvent) (h : stack ≠ []) :
    ∃ s2, builder_step stack e = some s2 ∧ s2 ≠ [] := by
  cases e with
  | starttag t a =>
    have hr : builder_step stack (.starttag t a) = handle_starttag stack t a := rfl
    rw [hr]
    unfold handle_starttag
    by_cases hv : VOID_ELEMENTS.contains t
    · simp only [hv, if_true]
      exact stack_append_top_some stack _ h
    · simp only [hv, Bool.false_eq_true, if_false]
      exact ⟨_, rfl, by simp⟩
  | startendtag t a =>
    exact stack_append_top_some stack _ h
  | endtag t =>
    have hr : builder_step stack (.endtag t) = handle_endtag stack t := rfl
    rw [hr]
    unfold handle_endtag
    cases hs : endtag_scan stack t with
    | none => exact ⟨stack, rfl, h⟩
    | some d =>
      have hlt := endtag_scan_lt t stack d hs
      obtain ⟨st2, hpop, _, hlen⟩ := pop_frames_spec (d + 1) stack hlt
      refine ⟨st2, hpop, ?_⟩
      have hp : 0 < st2.length := by omega
      exact List.length_pos.mp hp
  | data s =>
    have hr : builder_step stack (.data s) = handle_data stack s := rfl
    rw [hr]
    unfold handle_data
    by_cases he : (s == "") = true
    · simp only [he, if_true]
      exact ⟨stack, rfl, h⟩
    · simp only [he, Bool.false_eq_true, if_false]
      exact stack_append_top_some stack _ h
  | comment s => exact stack_append_top_some stack _ h
  | decl s => exact stack_append_top_some stack _ h

/-- The builder run never fails and never empties the stack. -/
theorem builder_run_some :
    ∀ (events : List HEvent) (stack : List Node), stack ≠ [] →
      ∃ st, builder_run_from stack events = some st ∧ st ≠ [] := by
  intro events
  induction events with
  | nil => intro stack h; exact ⟨stack, rfl, h⟩
  | cons e es ih =>
    intro stack h
    obtain ⟨s2, hstep, h2⟩ := builder_step_some stack e h
    obtain ⟨st, hrun, h3⟩ := ih s2 h2
    refine ⟨st, ?_, h3⟩
    rw [builder_run_from, hstep]
    exact hrun

/-- Claim C7: the tree builder is total: for every event stream (and so for
every input string, however malformed) it produces a root node; none of the
stack operations it models with Option ever fails, and parse_html returns
exactly that tree. -/
theorem c7_parse_total :
    (∀ events : List HEvent, ∃ t, build_dom events = some t) ∧
    (∀ s : String, build_dom (tokenize s) = some (parse_html s)) := by
  have hmain : ∀ events : List HEvent, ∃ t, build_dom events = some t := by
    intro events
    obtain ⟨st, hrun, hne⟩ := builder_run_some events builder_init (by simp [builder_init])
    have hlt : st.length - 1 < st.length := by
      have : 0 < st.length := List.length_pos.mpr hne
      omega
    obtain ⟨st2, hpop, _, hlen⟩ := pop_frames_spec (st.length - 1) st hlt
    have hone : st2.length = 1 := by
      have : 0 < st.length := List.length_pos.mpr hne
      omega
    cases st2 with
    | nil => simp at hone
    | cons r rest =>
      refine ⟨r, ?_⟩
      unfold build_dom
      rw [hrun]
      simp only [Option.some_bind]
      rw [hpop]
      simp only [Option.some_bind]
      rfl
  refine ⟨hmain, ?_⟩
  intro s
  obtain ⟨t, ht⟩ := hmain (tokenize s)
  rw [ht]
  unfold parse_html
  rw [ht]
  rfl

theorem Node.children_withChildren (n : Node) (cs : List Node) :
    (n.withChildren cs).children = cs := by
  cases n with
  | mk t a c x d m => rfl

mutual
/-- Retagging by normalize_headings never changes any text content. -/
theorem get_text_nh_node : ∀ (seen : Bool) (n : Node),
    get_text (normalize_headings_node seen n).1 = get_text n
  | seen, .mk (some t) a cs x d m => by
    rw [normalize_headings_node]
    by_cases hc : (HEADING_TAGS.contains t &&
        str_strip (get_text (.mk (some t) a cs x d m)) != "") = true
    · rw [if_pos hc]
      by_cases hs : seen = true
      · rw [if_pos hs]
        simp only [get_text]
        rw [get_text_nh_list true cs]
      · rw [if_neg hs]
        simp only [get_text]
        rw [get_text_nh_list true cs]
    · rw [if_neg hc]
      simp only [get_text]
      rw [get_text_nh_list seen cs]
  | seen, .mk none a cs x d m => rfl

theorem get_text_nh_list : ∀ (seen : Bool) (cs : List Node),
    get_text_list (normalize_headings_list seen cs).1 = get_text_list cs
  | seen, [] => rfl
  | seen, c :: rest => by
    rw [normalize_headings_list]
    simp only [get_text_list]
    rw [get_text_nh_node seen c,
      get_text_nh_list (normalize_headings_node seen c).2 rest]
end

theorem spec_head_map_cons_append (a : String) (l1 l2 : List String) :
    spec_head_map ((a :: l1) ++ l2) = "h1" :: (l1.map demote_tag ++ l2.map demote_tag) := by
  simp [spec_head_map]

mutual
/-- Effect of the walk on the heading tag lists: with the first heading
already seen, every heading is demoted; before it, the first heading becomes
h1 and the rest are demoted. The Boolean output records whether a heading
has been seen. -/
theorem heading_tags_nh_node : ∀ (seen : Bool) (n : Node),
    heading_tags_node (normalize_headings_node seen n).1 =
      (if seen then (heading_tags_node n).map demote_tag
       else spec_head_map (heading_tags_node n)) ∧
    (normalize_headings_node seen n).2 = (seen || !(heading_tags_node n).isEmpty)
  | seen, .mk (some t) a cs x d m => by
    have hgt : ∀ cs2 t2,
        get_text (Node.mk (some t2) a cs2 x d m) = get_text_list cs2 ∨
        get_text (Node.mk (some t2) a cs2 x d m) = "" := by
      intro cs2 t2
      rw [get_text]
      by_cases hb : (m || d) = true
      · rw [hb]; right; rfl
      · rw [if_neg hb]; left; rfl
    rw [normalize_headings_node]
    by_cases hc : (HEADING_TAGS.contains t &&
        str_strip (get_text (.mk (some t) a cs x d m)) != "") = true
    · rw [if_pos hc]
      have hhwt : heading_with_text (.mk (some t) a cs x d m) = true := hc
      have hL := heading_tags_nh_list true cs
      by_cases hs : seen = true
      · subst hs
        rw [if_pos rfl]
        constructor
        · have hhwt2 : heading_with_text
              (.mk (some (demote_tag t)) a (normalize_headings_list true cs).1 x d m) = true := by
            unfold heading_with_text at hhwt ⊢
            simp only [Node.tag] at hhwt ⊢
            have h1 := Bool.and_eq_true .. |>.mp hhwt
            refine Bool.and_eq_true .. |>.mpr ⟨?_, ?_⟩
            · have := h1.1
              unfold demote_tag HEADING_TAGS at this ⊢
              by_cases e1 : (t == "h1") = true
              · simp [e1]
              · simp only [e1, Bool.false_eq_true, if_false]
                by_cases e2 : (t == "h4" || t == "h5" || t == "h6") = true
                · simp [e2]
                · simp only [e2, Bool.false_eq_true, if_false]
                  exact this
            · have hgteq : get_text (Node.mk (some (demote_tag t)) a
                  (normalize_headings_list true cs).1 x d m) =
                  get_text (Node.mk (some t) a cs x d m) := by
                rw [get_text, get_text]
                by_cases hb : (m || d) = true
                · rw [hb]; rfl
                · rw [if_neg hb, if_neg hb]
                  exact get_text_nh_list true cs
              rw [hgteq]
              exact h1.2
          rw [heading_tags_node, hhwt2, heading_tags_node, hhwt]
          rw [hL.1]
          simp
        · rw [hL.2]
          rw [heading_tags_node, hhwt]
          simp
      · have hs2 : seen = false := by
          cases seen
          · rfl
          · exact absurd rfl hs
        subst hs2
        rw [if_neg (by simp)]
        constructor
        · have hhwt2 : heading_with_text
              (.mk (some "h1") a (normalize_headings_list true cs).1 x d m) = true := by
            unfold heading_with_text at hhwt ⊢
            simp only [Node.tag] at hhwt ⊢
            have h1 := Bool.and_eq_true .. |>.mp hhwt
            refine Bool.and_eq_true .. |>.mpr ⟨by decide, ?_⟩
            have hgteq : get_text (Node.mk (some "h1") a
                (normalize_headings_list true cs).1 x d m) =
                get_text (Node.mk (some t) a cs x d m) := by
              rw [get_text, get_text]
              by_cases hb : (m || d) = true
              · rw [hb]; rfl
              · rw [if_neg hb, if_neg hb]
                exact get_text_nh_list true cs
            rw [hgteq]
            exact h1.2
          rw [heading_tags_node, hhwt2, heading_tags_node, hhwt]
          rw [hL.1]
          simp [spec_head_map]
        · rw [hL.2]
          rw [heading_tags_node, hhwt]
          simp
    · rw [if_neg hc]
      have hhwt : heading_with_text (.mk (some t) a cs x d m) = false := by
        unfold heading_with_text
        simp only [Node.tag]
        exact (Bool.eq_false_iff.mpr hc)
      have hL := heading_tags_nh_list seen cs
      constructor
      · have hhwt2 : heading_with_text
            (.mk (some t) a (normalize_headings_list seen cs).1 x d m) = false := by
          unfold heading_with_text at hhwt ⊢
          simp only [Node.tag] at hhwt ⊢
          have hgteq : get_text (Node.mk (some t) a
              (normalize_headings_list seen cs).1 x d m) =
              get_text (Node.mk (some t) a cs x d m) := by
            rw [get_text, get_text]
            by_cases hb : (m || d) = true
            · rw [hb]; rfl
            · rw [if_neg hb, if_neg hb]
              exact get_text_nh_list seen cs
          rw [hgteq]
          exact hhwt
        rw [heading_tags_node, hhwt2, heading_tags_node, hhwt]
        rw [hL.1]
        simp
      · rw [hL.2]
        rw [heading_tags_node, hhwt]
        simp
  | seen, .mk none a cs x d m => by
    constructor
    · rw [normalize_headings_node]
      cases seen <;> simp [heading_tags_node, spec_head_map]
    · rw [normalize_headings_node]
      simp [heading_tags_node]

theorem heading_tags_nh_list : ∀ (seen : Bool) (cs : List Node),
    heading_tags_list (normalize_headings_list seen cs).1 =
      (if seen then (heading_tags_list cs).map demote_tag
       else spec_head_map (heading_tags_list cs)) ∧
    (normalize_headings_list seen cs).2 = (seen || !(heading_tags_list cs).isEmpty)
  | seen, [] => by
    cases seen <;> simp [normalize_headings_list, heading_tags_list, spec_head_map]
  | seen, c :: rest => by
    have hN := heading_tags_nh_node seen c
    have hR := heading_tags_nh_list (normalize_headings_node seen c).2 rest
    rw [normalize_headings_list]
    simp only [heading_tags_list]
    constructor
    · rw [hN.1, hR.1, hN.2]
      cases seen
      · simp only [Bool.false_or]
        cases hA : heading_tags_node c with
        | nil => simp [spec_head_map, hA]
        | cons a l1 =>
          simp only [hA, List.isEmpty_cons, Bool.not_false, if_true, if_false]
          rw [spec_head_map_cons_append]
          simp [spec_head_map, List.map_append]
      · simp [List.map_append]
    · rw [hR.2, hN.2]
      cases hA : heading_tags_node c with
      | nil => cases seen <;> simp [hA]
      | cons a l => cases seen <;> simp [hA]
end

theorem demote_tag_ne_h1 (s : String) : demote_tag s ≠ "h1" := by
  unfold demote_tag
  by_cases e1 : (s == "h1") = true
  · simp [e1]
  · simp only [e1, Bool.false_eq_true, if_false]
    by_cases e2 : (s == "h4" || s == "h5" || s == "h6") = true
    · simp [e2]
    · simp only [e2, Bool.false_eq_true, if_false]
      intro h
      exact e1 (by simp [h])

theorem count_h1_map_demote : ∀ l : List String, ((l.map demote_tag).count "h1") = 0 := by
  intro l
  induction l with
  | nil => rfl
  | cons a l ih =>
    have hne := demote_tag_ne_h1 a
    simp [List.count_cons, ih, hne]

/-- Claim C6: among the h1 to h6 headings with non empty trimmed text in
document order, heading normalization turns the first into h1 and maps every
later one through the demotion table (h1 to h2; h4, h5, h6 to h3; h2 and h3
unchanged); consequently at most one heading with non empty text carries the
h1 tag afterwards. -/
theorem c6_heading_normalization (t : Node) :
    heading_tags (normalize_headings t) = spec_head_map (heading_tags t) ∧
    (heading_tags (normalize_headings t)).count "h1" ≤ 1 := by
  have hmain : heading_tags (normalize_headings t) = spec_head_map (heading_tags t) := by
    unfold normalize_headings heading_tags
    rw [Node.children_withChildren]
    have := (heading_tags_nh_list false t.children).1
    simpa using this
  refine ⟨hmain, ?_⟩
  rw [hmain]
  cases hl : heading_tags t with
  | nil => simp [spec_head_map]
  | cons a l =>
    simp [spec_head_map, List.count_cons, count_h1_map_demote]

/-! ## Path and subtree infrastructure -/

theorem get_at_path_append (q1 q2 : List Nat) :
    ∀ n : Node, get_at_path (q1 ++ q2) n = (get_at_path q1 n).bind (get_at_path q2) := by
  induction q1 with
  | nil => intro n; simp [get_at_path]
  | cons i p ih =>
    intro n
    rw [List.cons_append, get_at_path, get_at_path]
    cases h : n.children.get? i with
    | none => simp
    | some c => simp [ih c]

theorem mem_subnodes_self (n : Node) : n ∈ subnodes n := by
  cases n with
  | mk t a cs x d m => rw [subnodes]; exact List.mem_cons_self _ _

theorem subnodes_list_of_mem : ∀ (cs : List Node) (c y : Node), c ∈ cs → y ∈ subnodes c →
    y ∈ subnodes_list cs := by
  intro cs
  induction cs with
  | nil => intro c y h; cases h
  | cons e rest ih =>
    intro c y h hy
    rw [subnodes_list]
    rcases List.mem_cons.mp h with h1 | h2
    · subst h1
      exact List.mem_append_left _ hy
    · exact List.mem_append_right _ (ih c y h2 hy)

theorem subnodes_of_mem_children (n c y : Node) (hc : c ∈ n.children)
    (hy : y ∈ subnodes c) : y ∈ subnodes n := by
  cases n with
  | mk t a cs x d m =>
    rw [subnodes]
    exact List.mem_cons_of_mem _ (subnodes_list_of_mem cs c y hc hy)

mutual
theorem subnodes_trans : ∀ (n r y : Node), r ∈ subnodes n → y ∈ subnodes r → y ∈ subnodes n
  | .mk t a cs x d m, r, y, hr, hy => by
    rw [subnodes] at hr ⊢
    rcases List.mem_cons.mp hr with h1 | h2
    · subst h1
      rw [subnodes] at hy
      exact hy
    · exact List.mem_cons_of_mem _ (subnodes_list_trans cs r y h2 hy)

theorem subnodes_list_trans : ∀ (cs : List Node) (r y : Node), r ∈ subnodes_list cs →
    y ∈ subnodes r → y ∈ subnodes_list cs
  | [], r, y, hr, _ => by rw [subnodes_list] at hr; cases hr
  | c :: rest, r, y, hr, hy => by
    rw [subnodes_list] at hr ⊢
    rcases List.mem_append.mp hr with h1 | h2
    · exact List.mem_append_left _ (subnodes_trans c r y h1 hy)
    · exact List.mem_append_right _ (subnodes_list_trans rest r y h2 hy)
end

theorem get_at_path_mem : ∀ (q : List Nat) (n m : Node), get_at_path q n = some m →
    m ∈ subnodes n := by
  intro q
  induction q with
  | nil =>
    intro n m h
    rw [get_at_path] at h
    cases h
    exact mem_subnodes_self n
  | cons i p ih =>
    intro n m h
    rw [get_at_path] at h
    cases hg : n.children.get? i with
    | none => rw [hg] at h; cases h
    | some c =>
      rw [hg] at h
      exact subnodes_of_mem_children n c m (List.get?_mem hg) (ih c m h)

theorem get_at_path_mem_proper : ∀ (q : List Nat) (n m : Node), q ≠ [] →
    get_at_path q n = some m → m ∈ proper_subnodes n := by
  intro q n m hne h
  cases q with
  | nil => exact absurd rfl hne
  | cons i p =>
    rw [get_at_path] at h
    cases hg : n.children.get? i with
    | none => rw [hg] at h; cases h
    | some c =>
      rw [hg] at h
      unfold proper_subnodes
      cases n with
      | mk t a cs x d m2 =>
        exact subnodes_list_of_mem cs c m (List.get?_mem hg) (get_at_path_mem p c m h)

theorem find_footer_index_spec : ∀ (cs : List Node) (i j : Nat), find_footer_index i cs = some j →
    ∃ c, i ≤ j ∧ cs.get? (j - i) = some c ∧ c.tag = some "footer" := by
  intro cs
  induction cs with
  | nil => intro i j h; cases h
  | cons e rest ih =>
    intro i j h
    rw [find_footer_index] at h
    by_cases he : (e.tag == some "footer") = true
    · rw [if_pos he] at h
      cases h
      exact ⟨e, le_rfl, by simp, by simpa using he⟩
    · rw [if_neg he] at h
      obtain ⟨c, hij, hget, htag⟩ := ih (i + 1) j h
      refine ⟨c, by omega, ?_, htag⟩
      have : j - i = (j - (i + 1)) + 1 := by omega
      rw [this]
      simpa using hget

mutual
theorem find_tag_path_node_spec : ∀ (name : String) (path : List Nat) (n : Node) (p : List Nat),
    find_tag_path_node name path n = some p →
    ∃ q b, p = path ++ q ∧ get_at_path q n = some b ∧ b.tag = some name
  | name, path, .mk (some t) a cs x d m, p, h => by
    rw [find_tag_path_node] at h
    by_cases ht : (t == name) = true
    · rw [if_pos ht] at h
      cases h
      have htn : t = name := by simpa using ht
      exact ⟨[], .mk (some t) a cs x d m, by simp, rfl, by simp [Node.tag, htn]⟩
    · rw [if_neg ht] at h
      obtain ⟨k, q, b, e, hp, hget, hb, htag⟩ := find_tag_path_list_spec name path 0 cs p h
      refine ⟨k :: q, b, by simpa using hp, ?_, htag⟩
      rw [get_at_path]
      have hch : (Node.mk (some t) a cs x d m).children = cs := rfl
      rw [hch, hget]
      exact hb
  | name, path, .mk none a cs x d m, p, h => by
    rw [find_tag_path_node] at h
    cases h

theorem find_tag_path_list_spec : ∀ (name : String) (path : List Nat) (i : Nat)
    (cs : List Node) (p : List Nat),
    find_tag_path_list name path i cs = some p →
    ∃ k q b e, p = path ++ ((i + k) :: q) ∧ cs.get? k = some e ∧
      get_at_path q e = some b ∧ b.tag = some name
  | name, path, i, [], p, h => by rw [find_tag_path_list] at h; cases h
  | name, path, i, c :: rest, p, h => by
    rw [find_tag_path_list] at h
    cases hn : find_tag_path_node name (path ++ [i]) c with
    | some p2 =>
      rw [hn] at h
      cases h
      obtain ⟨q, b, hp, hb, htag⟩ := find_tag_path_node_spec name (path ++ [i]) c _ hn
      exact ⟨0, q, b, c, by simpa using hp, rfl, hb, htag⟩
    | none =>
      rw [hn] at h
      obtain ⟨k, q, b, e, hp, hget, hb, htag⟩ := find_tag_path_list_spec name path (i + 1) rest p h
      refine ⟨k + 1, q, b, e, ?_, by simpa using hget, hb, htag⟩
      rw [hp]
      have : i + 1 + k = i + (k + 1) := by omega
      rw [this]
end

/-- A found tag path addresses a node carrying that tag. -/
theorem find_tag_path_spec (root : Node) (name : String) (p : List Nat)
    (h : find_tag_path root name = some p) :
    ∃ b, get_at_path p root = some b ∧ b.tag = some name := by
  unfold find_tag_path at h
  obtain ⟨k, q, b, e, hp, hget, hb, htag⟩ := find_tag_path_list_spec name [] 0 root.children p h
  refine ⟨b, ?_, htag⟩
  rw [hp]
  simp only [List.nil_append]
  rw [get_at_path]
  simp only [Nat.zero_add]
  rw [hget]
  exact hb

mutual
theorem footer_candidates_node_at : ∀ (path : List Nat) (fa : Bool) (n : Node)
    (p : List Nat) (c : Node), (p, c) ∈ footer_candidates_node path fa n →
    ∃ q, p = path ++ q ∧ get_at_path q n = some c
  | path, fa, .mk (some t) a cs x d m, p, c, h => by
    rw [footer_candidates_node] at h
    rcases List.mem_append.mp h with h1 | h2
    · by_cases hcand : fm_is_candidate fa (.mk (some t) a cs x d m) = true
      · rw [if_pos hcand] at h1
        rcases List.mem_singleton.mp h1 with heq
        cases heq
        exact ⟨[], by simp, rfl⟩
      · rw [if_neg hcand] at h1
        cases h1
    · obtain ⟨k, q, e, hp, hget, hb⟩ :=
        footer_candidates_list_at path (fa || t == "footer") 0 cs p c h2
      refine ⟨k :: q, by simpa using hp, ?_⟩
      rw [get_at_path]
      have hch : (Node.mk (some t) a cs x d m).children = cs := rfl
      rw [hch, hget]
      exact hb
  | path, fa, .mk none a cs x d m, p, c, h => by
    rw [footer_candidates_node] at h
    cases h

theorem footer_candidates_list_at : ∀ (path : List Nat) (fa : Bool) (i : Nat)
    (cs : List Node) (p : List Nat) (c : Node),
    (p, c) ∈ footer_candidates_list path fa i cs →
    ∃ k q e, p = path ++ ((i + k) :: q) ∧ cs.get? k = some e ∧ get_at_path q e = some c
  | path, fa, i, [], p, c, h => by rw [footer_candidates_list] at h; cases h
  | path, fa, i, e0 :: rest, p, c, h => by
    rw [footer_candidates_list] at h
    rcases List.mem_append.mp h with h1 | h2
    · obtain ⟨q, hp, hb⟩ := footer_candidates_node_at (path ++ [i]) fa e0 p c h1
      exact ⟨0, q, e0, by simpa using hp, rfl, hb⟩
    · obtain ⟨k, q, e, hp, hget, hb⟩ := footer_candidates_list_at path fa (i + 1) rest p c h2
      refine ⟨k + 1, q, e, ?_, by simpa using hget, hb⟩
      rw [hp]
      have : i + 1 + k = i + (k + 1) := by omega
      rw [this]
end

/-- Every collected candidate value is the node addressed by its path. -/
theorem fm_candidates_at (root : Node) (p : List Nat) (c : Node)
    (h : (p, c) ∈ fm_candidates root) : get_at_path p root = some c := by
  unfold fm_candidates at h
  obtain ⟨k, q, e, hp, hget, hb⟩ := footer_candidates_list_at [] false 0 root.children p c h
  rw [hp]
  simp only [List.nil_append]
  rw [get_at_path]
  simp only [Nat.zero_add]
  rw [hget]
  exact hb

theorem fm_rebuild_list_mem (cand_paths : List (List Nat)) (plant_path : List Nat)
    (plant : List Node) :
    ∀ (cs : List Node) (cur : List Nat) (i k : Nat) (c : Node),
      cs.get? k = some c → ¬((cur ++ [i + k]) ∈ cand_paths) →
      fm_rebuild cand_paths plant_path plant (cur ++ [i + k]) c ∈
        fm_rebuild_list cand_paths plant_path plant cur i cs := by
  intro cs
  induction cs with
  | nil => intro cur i k c hg; cases hg
  | cons e rest ih =>
    intro cur i k c hg hnc
    cases k with
    | zero =>
      simp only [List.get?] at hg
      cases hg
      rw [fm_rebuild_list]
      rw [if_neg (by simpa using hnc)]
      exact List.mem_cons_self _ _
    | succ k2 =>
      simp only [List.get?] at hg
      have hrec := ih cur (i + 1) k2 c hg
        (by
          have : i + 1 + k2 = i + (k2 + 1) := by omega
          rw [this]
          exact hnc)
      have heq : i + 1 + k2 = i + (k2 + 1) := by omega
      rw [heq] at hrec
      rw [fm_rebuild_list]
      by_cases hin : (cur ++ [i]) ∈ cand_paths
      · rw [if_pos hin]
        exact hrec
      · rw [if_neg hin]
        exact List.mem_cons_of_mem _ hrec

/-- When no dropped candidate path reaches into the plant path, the node at
the plant path survives the rebuild (with its children rebuilt and the plant
appended) as a subnode of the result, keeping its tag and holding every
planted node among its children. -/
theorem fm_rebuild_plant (cand_paths : List (List Nat)) (plant_path : List Nat)
    (plant : List Node) :
    ∀ (q : List Nat) (n : Node) (cur : List Nat) (b : Node),
      plant_path = cur ++ q →
      get_at_path q n = some b →
      (∀ cp ∈ cand_paths, ¬(cp.isPrefixOf plant_path = true)) →
      ∃ r, r ∈ subnodes (fm_rebuild cand_paths plant_path plant cur n) ∧
        r.tag = b.tag ∧ (∀ v ∈ plant, v ∈ r.children) := by
  intro q
  induction q with
  | nil =>
    intro n cur b hpp hget hcp
    rw [get_at_path] at hget
    cases hget
    cases n with
    | mk t a cs x d m =>
      refine ⟨_, mem_subnodes_self _, ?_, ?_⟩
      · rw [fm_rebuild]
        rfl
      · rw [fm_rebuild]
        have hcur : cur = plant_path := by rw [hpp]; simp
        rw [if_pos hcur]
        intro v hv
        simp only [Node.children]
        exact List.mem_append_right _ hv
  | cons j q2 ih =>
    intro n cur b hpp hget hcp
    rw [get_at_path] at hget
    cases hg : n.children.get? j with
    | none => rw [hg] at hget; cases hget
    | some cj =>
      rw [hg] at hget
      have hkeep : ¬((cur ++ [j]) ∈ cand_paths) := by
        intro hmem
        apply hcp _ hmem
        rw [hpp]
        rw [List.isPrefixOf_iff_prefix]
        exact ⟨q2, by simp⟩
      obtain ⟨r, hrmem, hrtag, hrpl⟩ := ih cj (cur ++ [j]) b (by rw [hpp]; simp) hget hcp
      refine ⟨r, ?_, hrtag, hrpl⟩
      cases n with
      | mk t a cs x d m =>
        have hg2 : cs.get? j = some cj := hg
        have hmem2 := fm_rebuild_list_mem cand_paths plant_path plant cs cur 0 j cj
          (by simpa using hg2) (by simpa using hkeep)
        simp only [Nat.zero_add] at hmem2
        rw [fm_rebuild]
        apply subnodes_of_mem_children _ _ _ ?_ hrmem
        simp only [Node.children]
        by_cases hcur : cur = plant_path
        · rw [if_pos hcur]
          exact List.mem_append_left _ hmem2
        · rw [if_neg hcur]
          exact hmem2

/-- Every candidate lies below (or is) some kept outermost candidate. -/
theorem fm_filtered_covers (cands : List (List Nat × Node)) (p : List Nat) (c : Node)
    (h : (p, c) ∈ cands) :
    ∃ p0 c0, (p0, c0) ∈ fm_filtered_of cands ∧ p0.isPrefixOf p = true := by
  have H : ∀ (len : Nat) (p : List Nat) (c : Node), p.length < len → (p, c) ∈ cands →
      ∃ p0 c0, (p0, c0) ∈ fm_filtered_of cands ∧ p0.isPrefixOf p = true := by
    intro len
    induction len with
    | zero => intro p c hl; omega
    | succ n ih =>
      intro p c hl hmem
      by_cases hk :
          (!(cands.any (fun qc => qc.1 != (p, c).1 && qc.1.isPrefixOf (p, c).1))) = true
      · refine ⟨p, c, ?_, ?_⟩
        · exact List.mem_filter.mpr ⟨hmem, hk⟩
        · rw [List.isPrefixOf_iff_prefix]
      · have hany : (cands.any (fun qc => qc.1 != p && qc.1.isPrefixOf p)) = true := by
          cases hval : cands.any (fun qc => qc.1 != p && qc.1.isPrefixOf p)
          · exact absurd (by simpa using hval) hk
          · rfl
        obtain ⟨qc, hqmem, hq⟩ := List.any_eq_true.mp hany
        have hq1 : qc.1 ≠ p := by
          have := (Bool.and_eq_true _ _).mp hq |>.1
          exact bne_iff_ne.mp this
        have hq2 : qc.1 <+: p := by
          have := (Bool.and_eq_true _ _).mp hq |>.2
          exact List.isPrefixOf_iff_prefix.mp this
        have hlen : qc.1.length < p.length := by
          obtain ⟨tl, htl⟩ := hq2
          have : tl ≠ [] := by
            intro hnil
            rw [hnil, List.append_nil] at htl
            exact hq1 htl
          have hlt : 0 < tl.length := List.length_pos.mpr this
          rw [← htl]
          simp only [List.length_append]
          omega
        obtain ⟨p0, c0, h0, hpre⟩ := ih qc.1 qc.2 (by omega) hqmem
        refine ⟨p0, c0, h0, ?_⟩
        rw [List.isPrefixOf_iff_prefix] at hpre ⊢
        exact hpre.trans hq2
  exact H (p.length + 1) p c (by omega) h

theorem get?_set_self : ∀ (cs : List Node) (i : Nat) (y c : Node),
    cs.get? i = some c → (cs.set i y).get? i = some y := by
  intro cs
  induction cs with
  | nil => intro i y c h; cases h
  | cons e rest ih =>
    intro i y c h
    cases i with
    | zero => rfl
    | succ j =>
      simp only [List.get?] at h
      simp only [List.set, List.get?]
      exact ih j y c h

theorem get_at_update_self : ∀ (p : List Nat) (f : Node → Node) (root b : Node),
    get_at_path p root = some b → get_at_path p (update_at p f root) = some (f b) := by
  intro p
  induction p with
  | nil =>
    intro f root b h
    rw [get_at_path] at h
    cases h
    rfl
  | cons i p2 ih =>
    intro f root b h
    rw [get_at_path] at h
    cases hg : root.children.get? i with
    | none => rw [hg] at h; cases h
    | some c =>
      rw [hg] at h
      rw [update_at, hg, get_at_path]
      rw [Node.children_withChildren]
      rw [get?_set_self root.children i _ c hg]
      exact ih f c b h

/-- Whenever the relocation target is clear, fm_finish puts the value of
every handed over candidate among the children of a footer element of the
result. -/
theorem fm_finish_plant (root : Node) (main_path : List Nat) (cands : List (List Nat × Node))
    (mn : Node) (hget : get_at_path main_path root = some mn)
    (hclear : fm_target_clear root main_path cands = true) :
    ∀ pc ∈ cands, ∃ f, f ∈ subnodes (fm_finish root main_path cands) ∧
      f.tag = some "footer" ∧ pc.2 ∈ f.children := by
  intro pc hpc
  unfold fm_target_clear at hclear
  rw [hget] at hclear
  have hgoal : fm_finish root main_path cands =
      match find_footer_index 0 mn.children with
      | some j => fm_rebuild (cands.map (fun pc => pc.1)) (main_path ++ [j])
          (cands.map (fun pc => pc.2)) [] root
      | none => fm_rebuild (cands.map (fun pc => pc.1)) main_path
          [Node.elem "footer" [] (cands.map (fun pc => pc.2))] [] root := by
    simp only [fm_finish, hget]
  rw [hgoal]
  cases hfi : find_footer_index 0 mn.children with
  | some j =>
    simp only [hfi] at hclear ⊢
    have hnopre : ∀ cp ∈ cands.map (fun pc => pc.1),
        ¬(cp.isPrefixOf (main_path ++ [j]) = true) := by
      intro cp hcp hpre
      obtain ⟨qc, hqmem, hq⟩ := List.mem_map.mp hcp
      have hany : cands.any (fun pc2 => pc2.1.isPrefixOf (main_path ++ [j])) = true :=
        List.any_eq_true.mpr ⟨qc, hqmem, by rw [hq]; exact hpre⟩
      rw [hany] at hclear
      cases hclear
    obtain ⟨fc, _, hgetj, htagj⟩ := find_footer_index_spec mn.children 0 j hfi
    simp only [Nat.sub_zero] at hgetj
    have hgetfc : get_at_path (main_path ++ [j]) root = some fc := by
      rw [get_at_path_append, hget]
      simp only [Option.some_bind]
      simp only [get_at_path]
      rw [hgetj]
    obtain ⟨r, hrmem, hrtag, hrpl⟩ := fm_rebuild_plant (cands.map (fun pc => pc.1))
      (main_path ++ [j]) (cands.map (fun pc => pc.2)) (main_path ++ [j]) root [] fc
      (by simp) hgetfc hnopre
    refine ⟨r, hrmem, ?_, ?_⟩
    · rw [hrtag, htagj]
    · exact hrpl _ (List.mem_map.mpr ⟨pc, hpc, rfl⟩)
  | none =>
    simp only [hfi] at hclear ⊢
    have hnopre : ∀ cp ∈ cands.map (fun pc => pc.1),
        ¬(cp.isPrefixOf main_path = true) := by
      intro cp hcp hpre
      obtain ⟨qc, hqmem, hq⟩ := List.mem_map.mp hcp
      have hany : cands.any (fun pc2 => pc2.1.isPrefixOf main_path) = true :=
        List.any_eq_true.mpr ⟨qc, hqmem, by rw [hq]; exact hpre⟩
      rw [hany] at hclear
      cases hclear
    obtain ⟨r, hrmem, hrtag, hrpl⟩ := fm_rebuild_plant (cands.map (fun pc => pc.1))
      main_path [Node.elem "footer" [] (cands.map (fun pc => pc.2))] main_path root [] mn
      (by simp) hget hnopre
    refine ⟨Node.elem "footer" [] (cands.map (fun pc => pc.2)), ?_, rfl, ?_⟩
    · have hfmem : Node.elem "footer" [] (cands.map (fun pc => pc.2)) ∈ r.children :=
        hrpl _ (List.mem_cons_self _ _)
      exact subnodes_trans _ r _ hrmem
        (subnodes_of_mem_children r _ _ hfmem (mem_subnodes_self _))
    · exact List.mem_map.mpr ⟨pc, hpc, rfl⟩

/-- Claim C3 amended: after footer relocation on a tree that contains a main
or a body element, and in which no moved candidate contains or equals the
relocation target footer, every candidate of the original tree (an element
with a candidate tag, copyright matching text, trimmed length at most 400
and no footer ancestor) occurs in the result as a strict descendant of a
footer element. -/
theorem c3_amended_candidates_reach_footer (root : Node)
    (hmb : find_tag_path root "main" ≠ none ∨ find_tag_path root "body" ≠ none)
    (hclear : footer_target_clear root = true)
    (p : List Nat) (c : Node) (hc : (p, c) ∈ fm_candidates root) :
    ∃ f, f ∈ subnodes (move_footer_elements root) ∧ f.tag = some "footer" ∧
      c ∈ proper_subnodes f := by
  have hne : (fm_candidates root).isEmpty = false := by
    cases hE : fm_candidates root with
    | nil => rw [hE] at hc; cases hc
    | cons _ _ => rfl
  obtain ⟨p0, c0, h0, hpre⟩ := fm_filtered_covers (fm_candidates root) p c hc
  have h0c : (p0, c0) ∈ fm_candidates root := (List.mem_filter.mp h0).1
  have hat : get_at_path p root = some c := fm_candidates_at root p c hc
  have hat0 : get_at_path p0 root = some c0 := fm_candidates_at root p0 c0 h0c
  have hsub : c ∈ subnodes c0 := by
    obtain ⟨tl, htl⟩ := List.isPrefixOf_iff_prefix.mp hpre
    rw [← htl] at hat
    rw [get_at_path_append, hat0] at hat
    simp only [Option.some_bind] at hat
    exact get_at_path_mem tl c0 c hat
  have hfin : ∀ f : Node, c0 ∈ f.children → c ∈ proper_subnodes f := by
    intro f hch
    unfold proper_subnodes
    exact subnodes_list_of_mem f.children c0 c hch hsub
  cases hm : find_tag_path root "main" with
  | some mp =>
    have hmove : move_footer_elements root =
        fm_finish root mp (fm_filtered_of (fm_candidates root)) := by
      simp only [move_footer_elements, hne, Bool.false_eq_true, if_false, hm]
    have hcl2 : fm_target_clear root mp (fm_filtered_of (fm_candidates root)) = true := by
      have h2 := hclear
      simp only [footer_target_clear, hne, Bool.false_eq_true, if_false, hm] at h2
      exact h2
    obtain ⟨mn, hget, _⟩ := find_tag_path_spec root "main" mp hm
    obtain ⟨f, hf1, hf2, hf3⟩ := fm_finish_plant root mp _ mn hget hcl2 (p0, c0) h0
    rw [hmove]
    exact ⟨f, hf1, hf2, hfin f hf3⟩
  | none =>
    have hbex : ∃ bp, find_tag_path root "body" = some bp := by
      rcases hmb with h | h
      · exact absurd hm h
      · cases hbp : find_tag_path root "body" with
        | none => exact absurd hbp h
        | some bp => exact ⟨bp, rfl⟩
    obtain ⟨bp, hbp⟩ := hbex
    have hmove : move_footer_elements root =
        fm_finish (update_at bp fm_wrap_body root) (bp ++ [0])
          ((fm_filtered_of (fm_candidates root)).map (fun pc => (fm_remap bp pc.1, pc.2))) := by
      simp only [move_footer_elements, hne, Bool.false_eq_true, if_false, hm, hbp]
    have hcl2 : fm_target_clear (update_at bp fm_wrap_body root) (bp ++ [0])
        ((fm_filtered_of (fm_candidates root)).map (fun pc => (fm_remap bp pc.1, pc.2)))
        = true := by
      have h2 := hclear
      simp only [footer_target_clear, hne, Bool.false_eq_true, if_false, hm, hbp] at h2
      exact h2
    obtain ⟨bn, hgetb, htagb⟩ := find_tag_path_spec root "body" bp hbp
    have hget2 : get_at_path bp (update_at bp fm_wrap_body root) = some (fm_wrap_body bn) :=
      get_at_update_self bp fm_wrap_body root bn hgetb
    have hgetm : get_at_path (bp ++ [0]) (update_at bp fm_wrap_body root) =
        some (Node.elem "main" [] bn.children) := by
      rw [get_at_path_append, hget2]
      simp only [Option.some_bind]
      simp only [get_at_path]
      unfold fm_wrap_body
      rw [Node.children_withChildren]
      rfl
    obtain ⟨f, hf1, hf2, hf3⟩ := fm_finish_plant _ (bp ++ [0]) _ _ hgetm hcl2
      (fm_remap bp p0, c0) (List.mem_map.mpr ⟨(p0, c0), h0, rfl⟩)
    rw [hmove]
    exact ⟨f, hf1, hf2, hfin f hf3⟩

/-- Claim C3 counterexample: a body whose only copyright bearing element is
an h1 (not in the candidate tag set). Footer relocation finds no candidate
and returns the tree unchanged: the matching node sits outside any script or
style subtree, yet the result contains no footer element at all, so it is
not a descendant of one. -/
theorem c3_counterexample :
    footer_pattern_matches (get_text (Node.elem "h1" [] [Node.textNode "©"])) = true ∧
    move_footer_elements (Node.elem "root" [] [Node.elem "body" []
        [Node.elem "h1" [] [Node.textNode "©"]]]) =
      Node.elem "root" [] [Node.elem "body" [] [Node.elem "h1" [] [Node.textNode "©"]]] ∧
    (subnodes (move_footer_elements (Node.elem "root" [] [Node.elem "body" []
        [Node.elem "h1" [] [Node.textNode "©"]]]))).all
      (fun f => !(f.tag == some "footer")) = true := by
  decide

/-- Claim C3 witness: a body with one copyright paragraph; after the pass
the paragraph is a strict descendant of a footer element. -/
theorem c3_witness :
    (find_tag_path (Node.elem "root" [] [Node.elem "body" [] [Node.elem "p" []
        [Node.textNode "©"]]]) "body" ≠ none) ∧
    footer_target_clear (Node.elem "root" [] [Node.elem "body" [] [Node.elem "p" []
        [Node.textNode "©"]]]) = true ∧
    (([0, 0], Node.elem "p" [] [Node.textNode "©"]) ∈ fm_candidates (Node.elem "root" []
        [Node.elem "body" [] [Node.elem "p" [] [Node.textNode "©"]]])) ∧
    ∃ f, f ∈ subnodes (move_footer_elements (Node.elem "root" [] [Node.elem "body" []
        [Node.elem "p" [] [Node.textNode "©"]]])) ∧ f.tag = some "footer" ∧
      Node.elem "p" [] [Node.textNode "©"] ∈ proper_subnodes f :=
  ⟨by decide, by decide, by decide,
    c3_amended_candidates_reach_footer _ (Or.inr (by decide)) (by decide) [0, 0] _ (by decide)⟩

/-! ## The void element invariant (claim C8) -/

theorem void_ok_mk (t : Option String) (a : List (String × String)) (cs : List Node)
    (x : Option String) (d m : Bool) :
    void_ok (.mk t a cs x d m) = ((!is_void_tag t || cs.isEmpty) && void_ok_list cs) := by
  rw [void_ok]

theorem void_ok_list_append : ∀ (a b : List Node),
    void_ok_list (a ++ b) = (void_ok_list a && void_ok_list b) := by
  intro a b
  induction a with
  | nil => simp [void_ok_list]
  | cons c rest ih => simp [void_ok_list, ih, Bool.and_assoc]

theorem void_ok_of_mem : ∀ (cs : List Node) (c : Node), void_ok_list cs = true → c ∈ cs →
    void_ok c = true := by
  intro cs
  induction cs with
  | nil => intro c _ h; cases h
  | cons e rest ih =>
    intro c hok hmem
    rw [void_ok_list, Bool.and_eq_true] at hok
    rcases List.mem_cons.mp hmem with h1 | h2
    · subst h1; exact hok.1
    · exact ih c hok.2 h2

mutual
theorem void_ok_of_subnode : ∀ (n m : Node), void_ok n = true → m ∈ subnodes n →
    void_ok m = true
  | .mk t a cs x d mm, m, hok, hmem => by
    rw [subnodes] at hmem
    rcases List.mem_cons.mp hmem with h1 | h2
    · subst h1; exact hok
    · rw [void_ok_mk, Bool.and_eq_true] at hok
      exact void_ok_list_of_subnode cs m hok.2 h2

theorem void_ok_list_of_subnode : ∀ (cs : List Node) (m : Node), void_ok_list cs = true →
    m ∈ subnodes_list cs → void_ok m = true
  | [], m, _, hmem => by rw [subnodes_list] at hmem; cases hmem
  | c :: rest, m, hok, hmem => by
    rw [void_ok_list, Bool.and_eq_true] at hok
    rw [subnodes_list] at hmem
    rcases List.mem_append.mp hmem with h1 | h2
    · exact void_ok_of_subnode c m hok.1 h1
    · exact void_ok_list_of_subnode rest m hok.2 h2
end

theorem void_ok_withText (n : Node) (x : Option String) :
    void_ok (n.withText x) = void_ok n := by
  cases n with
  | mk t a cs x2 d m => rfl

mutual
theorem cw_void : ∀ (n : Node) (p : Bool), void_ok n = true →
    void_ok (clean_whitespace n p) = true
  | .mk t a cs x d m, p, hok => by
    simp only [clean_whitespace]
    rw [void_ok_mk, Bool.and_eq_true] at hok
    rw [void_ok_mk, Bool.and_eq_true]
    refine ⟨?_, cw_void_list cs _ hok.2⟩
    rcases Bool.or_eq_true _ _ |>.mp hok.1 with h1 | h2
    · rw [h1]; rfl
    · have : cs = [] := by
        cases cs
        · rfl
        · simp at h2
      subst this
      rw [clean_whitespace_children]
      simp

theorem cw_void_list : ∀ (cs : List Node) (p : Bool), void_ok_list cs = true →
    void_ok_list (clean_whitespace_children cs p) = true
  | [], p, _ => by rw [clean_whitespace_children]; rfl
  | .mk none a cs x d m :: rest, p, hok => by
    rw [void_ok_list, Bool.and_eq_true] at hok
    rw [clean_whitespace_children]
    by_cases hp : p = true
    · rw [if_pos hp]
      rw [void_ok_list, Bool.and_eq_true]
      exact ⟨hok.1, cw_void_list rest p hok.2⟩
    · rw [if_neg hp]
      by_cases hw : (str_strip ((x.map cw_fix_text).getD "") == "") = true
      · rw [if_pos hw]
        exact cw_void_list rest p hok.2
      · rw [if_neg hw]
        rw [void_ok_list, Bool.and_eq_true]
        refine ⟨?_, cw_void_list rest p hok.2⟩
        rw [void_ok_withText]
        exact cw_void _ p hok.1
  | .mk (some t) a cs x d m :: rest, p, hok => by
    rw [void_ok_list, Bool.and_eq_true] at hok
    rw [clean_whitespace_children]
    rw [void_ok_list, Bool.and_eq_true]
    exact ⟨cw_void _ p hok.1, cw_void_list rest p hok.2⟩
end

theorem ems_void (n : Node) (h : void_ok n = true) :
    void_ok (ensure_matching_sections n) = true :=
  cw_void n false h

mutual
theorem rrw_step_void : ∀ (n n2 : Node), rrw_step n = some n2 → void_ok n = true →
    void_ok n2 = true
  | .mk t a cs x d m, n2, h, hok => by
    rw [rrw_step] at h
    cases h2 : rrw_step_list cs with
    | none => rw [h2] at h; cases h
    | some cs2 =>
      rw [h2] at h
      cases h
      rw [void_ok_mk, Bool.and_eq_true] at hok
      rw [void_ok_mk, Bool.and_eq_true]
      refine ⟨?_, rrw_step_list_void cs cs2 h2 hok.2⟩
      rcases Bool.or_eq_true _ _ |>.mp hok.1 with h1 | hempty
      · rw [h1]; rfl
      · have hnil : cs = [] := by
          cases cs
          · rfl
          · simp at hempty
        subst hnil
        rw [rrw_step_list] at h2
        cases h2

theorem rrw_step_list_void : ∀ (cs cs2 : List Node), rrw_step_list cs = some cs2 →
    void_ok_list cs = true → void_ok_list cs2 = true
  | [], cs2, h, _ => by rw [rrw_step_list] at h; cases h
  | .mk (some t) a cs x d m :: rest, cs2, h, hok => by
    rw [void_ok_list, Bool.and_eq_true] at hok
    rw [rrw_step_list] at h
    by_cases hq : rrw_qualifies (.mk (some t) a cs x d m) = true
    · rw [if_pos hq] at h
      cases h
      rw [void_ok_list_append, Bool.and_eq_true]
      have := hok.1
      rw [void_ok_mk, Bool.and_eq_true] at this
      exact ⟨this.2, hok.2⟩
    · rw [if_neg hq] at h
      cases h3 : rrw_step (.mk (some t) a cs x d m) with
      | some child2 =>
        rw [h3] at h
        cases h
        rw [void_ok_list, Bool.and_eq_true]
        exact ⟨rrw_step_void _ child2 h3 hok.1, hok.2⟩
      | none =>
        rw [h3] at h
        cases h4 : rrw_step_list rest with
        | none => rw [h4] at h; cases h
        | some rest2 =>
          rw [h4] at h
          cases h
          rw [void_ok_list, Bool.and_eq_true]
          exact ⟨hok.1, rrw_step_list_void rest rest2 h4 hok.2⟩
  | .mk none a cs x d m :: rest, cs2, h, hok => by
    rw [void_ok_list, Bool.and_eq_true] at hok
    rw [rrw_step_list] at h
    cases h4 : rrw_step_list rest with
    | none => rw [h4] at h; cases h
    | some rest2 =>
      rw [h4] at h
      cases h
      rw [void_ok_list, Bool.and_eq_true]
      exact ⟨hok.1, rrw_step_list_void rest rest2 h4 hok.2⟩
end

theorem rrw_loop_void : ∀ (fuel : Nat) (n : Node), void_ok n = true →
    void_ok (rrw_loop fuel n) = true := by
  intro fuel
  induction fuel with
  | zero => intro n h; exact h
  | succ k ih =>
    intro n h
    rw [rrw_loop]
    cases hs : rrw_step n with
    | none => exact h
    | some n2 => exact ih n2 (rrw_step_void n n2 hs h)

theorem rrw_void (n : Node) (h : void_ok n = true) :
    void_ok (remove_redundant_wrappers n) = true :=
  rrw_loop_void (node_size n) n h

mutual
theorem reh_void : ∀ (n : Node), void_ok n = true → void_ok (remove_empty_headings n) = true
  | .mk t a cs x d m, hok => by
    rw [remove_empty_headings]
    rw [void_ok_mk, Bool.and_eq_true] at hok
    rw [void_ok_mk, Bool.and_eq_true]
    refine ⟨?_, reh_list_void cs hok.2⟩
    rcases Bool.or_eq_true _ _ |>.mp hok.1 with h1 | hempty
    · rw [h1]; rfl
    · have hnil : cs = [] := by
        cases cs
        · rfl
        · simp at hempty
      subst hnil
      rw [remove_empty_headings_list]
      simp

theorem reh_list_void : ∀ (cs : List Node), void_ok_list cs = true →
    void_ok_list (remove_empty_headings_list cs) = true
  | [], _ => by rw [remove_empty_headings_list]; rfl
  | .mk (some t) a cs x d m :: rest, hok => by
    rw [void_ok_list, Bool.and_eq_true] at hok
    rw [remove_empty_headings_list]
    by_cases hrm : ((t == "h1" || t == "h2") &&
        str_strip (get_text (.mk (some t) a cs x d m)) == "") = true
    · rw [if_pos hrm]
      exact reh_list_void rest hok.2
    · rw [if_neg hrm]
      rw [void_ok_list, Bool.and_eq_true]
      exact ⟨reh_void _ hok.1, reh_list_void rest hok.2⟩
  | .mk none a cs x d m :: rest, hok => by
    rw [void_ok_list, Bool.and_eq_true] at hok
    rw [remove_empty_headings_list]
    rw [void_ok_list, Bool.and_eq_true]
    exact ⟨hok.1, reh_list_void rest hok.2⟩
end

mutual
theorem rei_void : ∀ (n : Node), void_ok n = true → void_ok (remove_empty_italics n) = true
  | .mk t a cs x d m, hok => by
    rw [remove_empty_italics]
    rw [void_ok_mk, Bool.and_eq_true] at hok
    rw [void_ok_mk, Bool.and_eq_true]
    refine ⟨?_, rei_list_void cs hok.2⟩
    rcases Bool.or_eq_true _ _ |>.mp hok.1 with h1 | hempty
    · rw [h1]; rfl
    · have hnil : cs = [] := by
        cases cs
        · rfl
        · simp at hempty
      subst hnil
      rw [remove_empty_italics_list]
      simp

theorem rei_list_void : ∀ (cs : List Node), void_ok_list cs = true →
    void_ok_list (remove_empty_italics_list cs) = true
  | [], _ => by rw [remove_empty_italics_list]; rfl
  | .mk (some t) a cs x d m :: rest, hok => by
    rw [void_ok_list, Bool.and_eq_true] at hok
    rw [remove_empty_italics_list]
    by_cases hrm : rei_removes (.mk (some t) a cs x d m) = true
    · rw [if_pos hrm]
      exact rei_list_void rest hok.2
    · rw [if_neg hrm]
      rw [void_ok_list, Bool.and_eq_true]
      exact ⟨rei_void _ hok.1, rei_list_void rest hok.2⟩
  | .mk none a cs x d m :: rest, hok => by
    rw [void_ok_list, Bool.and_eq_true] at hok
    rw [remove_empty_italics_list]
    rw [void_ok_list, Bool.and_eq_true]
    exact ⟨hok.1, rei_list_void rest hok.2⟩
end

mutual
theorem alt_node_void : ∀ (n : Node), void_ok n = true → void_ok (add_alt_text_node n) = true
  | .mk (some t) a cs x d m, hok => by
    simp only [add_alt_text_node]
    rw [void_ok_mk, Bool.and_eq_true] at hok
    rw [void_ok_mk, Bool.and_eq_true]
    refine ⟨?_, alt_list_void cs hok.2⟩
    rcases Bool.or_eq_true _ _ |>.mp hok.1 with h1 | hempty
    · rw [h1]; rfl
    · have hnil : cs = [] := by
        cases cs
        · rfl
        · simp at hempty
      subst hnil
      rw [add_alt_text_list]
      simp
  | .mk none a cs x d m, hok => by
    simp only [add_alt_text_node]
    exact hok

theorem alt_list_void : ∀ (cs : List Node), void_ok_list cs = true →
    void_ok_list (add_alt_text_list cs) = true
  | [], _ => by rw [add_alt_text_list]; rfl
  | c :: rest, hok => by
    rw [void_ok_list, Bool.and_eq_true] at hok
    rw [add_alt_text_list]
    rw [void_ok_list, Bool.and_eq_true]
    exact ⟨alt_node_void c hok.1, alt_list_void rest hok.2⟩
end

theorem alt_void (n : Node) (hok : void_ok n = true) : void_ok (add_alt_text n) = true := by
  cases n with
  | mk t a cs x d m =>
    rw [add_alt_text]
    rw [void_ok_mk, Bool.and_eq_true] at hok
    rw [void_ok_mk, Bool.and_eq_true]
    refine ⟨?_, alt_list_void cs hok.2⟩
    rcases Bool.or_eq_true _ _ |>.mp hok.1 with h1 | hempty
    · rw [h1]; rfl
    · have hnil : cs = [] := by
        cases cs
        · rfl
        · simp at hempty
      subst hnil
      rw [add_alt_text_list]
      simp

theorem heading_tag_cases (t : String) (h : HEADING_TAGS.contains t = true) :
    t = "h1" ∨ t = "h2" ∨ t = "h3" ∨ t = "h4" ∨ t = "h5" ∨ t = "h6" := by
  unfold HEADING_TAGS at h
  simp only [List.contains_cons, List.contains_nil, Bool.or_eq_true, beq_iff_eq] at h
  tauto

theorem is_void_tag_demote (t : String) (h : HEADING_TAGS.contains t = true) :
    is_void_tag (some (demote_tag t)) = false := by
  rcases heading_tag_cases t h with h1 | h1 | h1 | h1 | h1 | h1 <;> subst h1 <;> decide

mutual
theorem nh_node_void : ∀ (seen : Bool) (n : Node), void_ok n = true →
    void_ok (normalize_headings_node seen n).1 = true
  | seen, .mk (some t) a cs x d m, hok => by
    rw [normalize_headings_node]
    rw [void_ok_mk, Bool.and_eq_true] at hok
    by_cases hc : (HEADING_TAGS.contains t &&
        str_strip (get_text (.mk (some t) a cs x d m)) != "") = true
    · rw [if_pos hc]
      have hhead : HEADING_TAGS.contains t = true := ((Bool.and_eq_true _ _).mp hc).1
      by_cases hs : seen = true
      · rw [if_pos hs]
        rw [void_ok_mk, Bool.and_eq_true]
        refine ⟨?_, nh_list_void true cs hok.2⟩
        rw [is_void_tag_demote t hhead]
        rfl
      · rw [if_neg hs]
        rw [void_ok_mk, Bool.and_eq_true]
        refine ⟨?_, nh_list_void true cs hok.2⟩
        have hv : is_void_tag (some "h1") = false := by decide
        rw [hv]
        rfl
    · rw [if_neg hc]
      rw [void_ok_mk, Bool.and_eq_true]
      refine ⟨?_, nh_list_void seen cs hok.2⟩
      rcases Bool.or_eq_true _ _ |>.mp hok.1 with h1 | hempty
      · rw [h1]; rfl
      · have hnil : cs = [] := by
          cases cs
          · rfl
          · simp at hempty
        subst hnil
        rw [normalize_headings_list]
        simp
  | seen, .mk none a cs x d m, hok => by
    rw [normalize_headings_node]
    exact hok

theorem nh_list_void : ∀ (seen : Bool) (cs : List Node), void_ok_list cs = true →
    void_ok_list (normalize_headings_list seen cs).1 = true
  | seen, [], _ => by rw [normalize_headings_list]; rfl
  | seen, c :: rest, hok => by
    rw [void_ok_list, Bool.and_eq_true] at hok
    rw [normalize_headings_list]
    rw [void_ok_list, Bool.and_eq_true]
    exact ⟨nh_node_void seen c hok.1,
      nh_list_void (normalize_headings_node seen c).2 rest hok.2⟩
end

theorem nh_void (n : Node) (hok : void_ok n = true) :
    void_ok (normalize_headings n) = true := by
  cases n with
  | mk t a cs x d m =>
    rw [normalize_headings]
    rw [void_ok_mk, Bool.and_eq_true] at hok
    have hch : (Node.mk t a cs x d m).children = cs := rfl
    rw [hch]
    have hw : (Node.mk t a cs x d m).withChildren (normalize_headings_list false cs).1 =
        .mk t a (normalize_headings_list false cs).1 x d m := rfl
    rw [hw]
    rw [void_ok_mk, Bool.and_eq_true]
    refine ⟨?_, nh_list_void false cs hok.2⟩
    rcases Bool.or_eq_true _ _ |>.mp hok.1 with h1 | hempty
    · rw [h1]; rfl
    · have hnil : cs = [] := by
        cases cs
        · rfl
        · simp at hempty
      subst hnil
      rw [normalize_headings_list]
      simp

mutual
theorem fm_rebuild_void :
    ∀ (cand_paths : List (List Nat)) (plant_path : List Nat) (plant : List Node)
      (n : Node) (cur : List Nat), void_ok_list plant = true → void_ok n = true →
      (∀ q b, plant_path = cur ++ q → get_at_path q n = some b →
        is_void_tag b.tag = false) →
      void_ok (fm_rebuild cand_paths plant_path plant cur n) = true
  | cand_paths, plant_path, plant, .mk t a cs x d m, cur, hplant, hok, H => by
    rw [fm_rebuild]
    rw [void_ok_mk, Bool.and_eq_true] at hok
    have hlistH : ∀ (k : Nat) (ck : Node), cs.get? k = some ck →
        ∀ q b, plant_path = cur ++ ([0 + k] ++ q) → get_at_path q ck = some b →
          is_void_tag b.tag = false := by
      intro k ck hk q b hpp hget
      refine H ((0 + k) :: q) b (by simpa using hpp) ?_
      rw [get_at_path]
      have hch : (Node.mk t a cs x d m).children = cs := rfl
      rw [hch]
      simp only [Nat.zero_add] at hk ⊢
      rw [hk]
      exact hget
    have hcs2 := fm_rebuild_list_void cand_paths plant_path plant cs cur 0 hplant hok.2 hlistH
    by_cases hcur : cur = plant_path
    · rw [if_pos hcur]
      rw [void_ok_mk, Bool.and_eq_true]
      constructor
      · have hb : is_void_tag t = false := by
          have := H [] (.mk t a cs x d m) (by rw [hcur]; simp) (by rw [get_at_path])
          exact this
        rw [hb]
        rfl
      · rw [void_ok_list_append, Bool.and_eq_true]
        exact ⟨hcs2, hplant⟩
    · rw [if_neg hcur]
      rw [void_ok_mk, Bool.and_eq_true]
      refine ⟨?_, hcs2⟩
      rcases Bool.or_eq_true _ _ |>.mp hok.1 with h1 | hempty
      · rw [h1]; rfl
      · have hnil : cs = [] := by
          cases cs
          · rfl
          · simp at hempty
        subst hnil
        rw [fm_rebuild_list]
        simp

theorem fm_rebuild_list_void :
    ∀ (cand_paths : List (List Nat)) (plant_path : List Nat) (plant : List Node)
      (cs : List Node) (cur : List Nat) (i : Nat), void_ok_list plant = true →
      void_ok_list cs = true →
      (∀ (k : Nat) (ck : Node), cs.get? k = some ck →
        ∀ q b, plant_path = cur ++ ([i + k] ++ q) → get_at_path q ck = some b →
          is_void_tag b.tag = false) →
      void_ok_list (fm_rebuild_list cand_paths plant_path plant cur i cs) = true
  | cand_paths, plant_path, plant, [], cur, i, _, _, _ => by
    rw [fm_rebuild_list]; rfl
  | cand_paths, plant_path, plant, c :: rest, cur, i, hplant, hok, H => by
    rw [void_ok_list, Bool.and_eq_true] at hok
    rw [fm_rebuild_list]
    have Hhead : ∀ q b, plant_path = (cur ++ [i]) ++ q → get_at_path q c = some b →
        is_void_tag b.tag = false := by
      intro q b hpp hget
      exact H 0 c rfl q b (by simpa using hpp) hget
    have Htail : ∀ (k : Nat) (ck : Node), rest.get? k = some ck →
        ∀ q b, plant_path = cur ++ ([(i + 1) + k] ++ q) → get_at_path q ck = some b →
          is_void_tag b.tag = false := by
      intro k ck hk q b hpp hget
      refine H (k + 1) ck (by simpa using hk) q b ?_ hget
      have heq : i + (k + 1) = (i + 1) + k := by omega
      rw [heq]
      exact hpp
    by_cases hin : (cur ++ [i]) ∈ cand_paths
    · rw [if_pos hin]
      exact fm_rebuild_list_void cand_paths plant_path plant rest cur (i + 1) hplant hok.2 Htail
    · rw [if_neg hin]
      rw [void_ok_list, Bool.and_eq_true]
      exact ⟨fm_rebuild_void cand_paths plant_path plant c (cur ++ [i]) hplant hok.1 Hhead,
        fm_rebuild_list_void cand_paths plant_path plant rest cur (i + 1) hplant hok.2 Htail⟩
end

theorem void_ok_list_set : ∀ (cs : List Node) (i : Nat) (y : Node),
    void_ok_list cs = true → void_ok y = true → void_ok_list (cs.set i y) = true := by
  intro cs
  induction cs with
  | nil => intro i y h _; exact h
  | cons e rest ih =>
    intro i y hok hy
    rw [void_ok_list, Bool.and_eq_true] at hok
    cases i with
    | zero =>
      simp only [List.set]
      rw [void_ok_list, Bool.and_eq_true]
      exact ⟨hy, hok.2⟩
    | succ j =>
      simp only [List.set]
      rw [void_ok_list, Bool.and_eq_true]
      exact ⟨hok.1, ih j y hok.2 hy⟩

theorem update_at_void : ∀ (p : List Nat) (f : Node → Node) (root : Node),
    void_ok root = true →
    (∀ b, get_at_path p root = some b → void_ok (f b) = true) →
    void_ok (update_at p f root) = true := by
  intro p
  induction p with
  | nil =>
    intro f root hok hf
    rw [update_at]
    exact hf root (by rw [get_at_path])
  | cons i p2 ih =>
    intro f root hok hf
    rw [update_at]
    cases hg : root.children.get? i with
    | none => simp only [hg]; exact hok
    | some c =>
      simp only [hg]
      cases root with
      | mk t a cs x d m =>
        have hcs : (Node.mk t a cs x d m).children = cs := rfl
        rw [hcs] at hg ⊢
        rw [void_ok_mk, Bool.and_eq_true] at hok
        have hw : (Node.mk t a cs x d m).withChildren (cs.set i (update_at p2 f c)) =
            .mk t a (cs.set i (update_at p2 f c)) x d m := rfl
        rw [hw]
        rw [void_ok_mk, Bool.and_eq_true]
        constructor
        · rcases Bool.or_eq_true _ _ |>.mp hok.1 with h1 | hempty
          · rw [h1]; rfl
          · have hnil : cs = [] := by
              cases cs
              · rfl
              · simp at hempty
            subst hnil
            cases hg
        · refine void_ok_list_set cs i _ hok.2 ?_
          refine ih f c (void_ok_of_mem cs c hok.2 (List.get?_mem hg)) ?_
          intro b hb
          refine hf b ?_
          rw [get_at_path, hcs, hg]
          exact hb

/-- Whenever the node at the plant location is not void tagged and the
planted values satisfy the invariant, fm_finish preserves it. -/
theorem fm_finish_void (root : Node) (main_path : List Nat) (cands : List (List Nat × Node))
    (mn : Node) (hroot : void_ok root = true)
    (hget : get_at_path main_path root = some mn) (hmn : is_void_tag mn.tag = false)
    (hvals : void_ok_list (cands.map (fun pc => pc.2)) = true) :
    void_ok (fm_finish root main_path cands) = true := by
  have hgoal : fm_finish root main_path cands =
      match find_footer_index 0 mn.children with
      | some j => fm_rebuild (cands.map (fun pc => pc.1)) (main_path ++ [j])
          (cands.map (fun pc => pc.2)) [] root
      | none => fm_rebuild (cands.map (fun pc => pc.1)) main_path
          [Node.elem "footer" [] (cands.map (fun pc => pc.2))] [] root := by
    simp only [fm_finish, hget]
  rw [hgoal]
  cases hfi : find_footer_index 0 mn.children with
  | some j =>
    obtain ⟨fc, _, hgetj, htagj⟩ := find_footer_index_spec mn.children 0 j hfi
    simp only [Nat.sub_zero] at hgetj
    have hgetfc : get_at_path (main_path ++ [j]) root = some fc := by
      rw [get_at_path_append, hget]
      simp only [Option.some_bind]
      simp only [get_at_path]
      rw [hgetj]
    refine fm_rebuild_void _ _ _ root [] hvals hroot ?_
    intro q b hpp hgb
    simp only [List.nil_append] at hpp
    subst hpp
    rw [hgetfc] at hgb
    cases hgb
    rw [htagj]
    rfl
  | none =>
    have hplant : void_ok_list [Node.elem "footer" [] (cands.map (fun pc => pc.2))] = true := by
      rw [void_ok_list, Bool.and_eq_true]
      refine ⟨?_, rfl⟩
      rw [Node.elem, void_ok_mk, Bool.and_eq_true]
      exact ⟨rfl, hvals⟩
    refine fm_rebuild_void _ _ _ root [] hplant hroot ?_
    intro q b hpp hgb
    simp only [List.nil_append] at hpp
    subst hpp
    rw [hget] at hgb
    cases hgb
    exact hmn

theorem void_ok_withChildren (n : Node) (cs : List Node) :
    void_ok (n.withChildren cs) = ((!is_void_tag n.tag || cs.isEmpty) && void_ok_list cs) := by
  cases n with
  | mk t a c x d m => rfl

theorem void_ok_children (n : Node) (h : void_ok n = true) :
    void_ok_list n.children = true := by
  cases n with
  | mk t a cs x d m =>
    rw [void_ok_mk, Bool.and_eq_true] at h
    exact h.2

theorem void_ok_list_of_forall : ∀ (cs : List Node), (∀ c ∈ cs, void_ok c = true) →
    void_ok_list cs = true := by
  intro cs
  induction cs with
  | nil => intro _; rfl
  | cons e rest ih =>
    intro h
    rw [void_ok_list, Bool.and_eq_true]
    exact ⟨h e (List.mem_cons_self _ _), ih (fun c hc => h c (List.mem_cons_of_mem _ hc))⟩

theorem fm_candidates_void (root : Node) (hok : void_ok root = true) :
    ∀ pc ∈ fm_candidates root, void_ok pc.2 = true := by
  intro pc hpc
  have hat := fm_candidates_at root pc.1 pc.2 hpc
  exact void_ok_of_subnode root pc.2 hok (get_at_path_mem _ _ _ hat)

theorem move_footer_void (root : Node) (hok : void_ok root = true) :
    void_ok (move_footer_elements root) = true := by
  by_cases hne : (fm_candidates root).isEmpty = true
  · simp only [move_footer_elements, hne, if_true]
    exact hok
  · have hne2 : (fm_candidates root).isEmpty = false := by
      cases h2 : (fm_candidates root).isEmpty
      · rfl
      · exact absurd h2 hne
    have hfv : void_ok_list ((fm_filtered_of (fm_candidates root)).map (fun pc => pc.2))
        = true := by
      refine void_ok_list_of_forall _ ?_
      intro c hc
      obtain ⟨pc, hpc, hceq⟩ := List.mem_map.mp hc
      subst hceq
      exact fm_candidates_void root hok pc ((List.mem_filter.mp hpc).1)
    cases hm : find_tag_path root "main" with
    | some mp =>
      have hmove : move_footer_elements root =
          fm_finish root mp (fm_filtered_of (fm_candidates root)) := by
        simp only [move_footer_elements, hne2, Bool.false_eq_true, if_false, hm]
      rw [hmove]
      obtain ⟨mn, hget, htag⟩ := find_tag_path_spec root "main" mp hm
      refine fm_finish_void root mp _ mn hok hget ?_ hfv
      rw [htag]
      rfl
    | none =>
      cases hbp : find_tag_path root "body" with
      | none =>
        have hmove : move_footer_elements root = root := by
          simp only [move_footer_elements, hne2, Bool.false_eq_true, if_false, hm, hbp]
        rw [hmove]
        exact hok
      | some bp =>
        have hmove : move_footer_elements root =
            fm_finish (update_at bp fm_wrap_body root) (bp ++ [0])
              ((fm_filtered_of (fm_candidates root)).map
                (fun pc => (fm_remap bp pc.1, pc.2))) := by
          simp only [move_footer_elements, hne2, Bool.false_eq_true, if_false, hm, hbp]
        rw [hmove]
        obtain ⟨bn, hgetb, htagb⟩ := find_tag_path_spec root "body" bp hbp
        have hroot2 : void_ok (update_at bp fm_wrap_body root) = true := by
          refine update_at_void bp fm_wrap_body root hok ?_
          intro b hb
          rw [hgetb] at hb
          cases hb
          unfold fm_wrap_body
          rw [void_ok_withChildren, Bool.and_eq_true]
          constructor
          · rw [htagb]
            rfl
          · rw [void_ok_list, Bool.and_eq_true]
            refine ⟨?_, rfl⟩
            rw [Node.elem, void_ok_mk, Bool.and_eq_true]
            exact ⟨rfl, void_ok_children bn
              (void_ok_of_subnode root bn hok (get_at_path_mem bp root bn hgetb))⟩
        have hget2 : get_at_path bp (update_at bp fm_wrap_body root) =
            some (fm_wrap_body bn) :=
          get_at_update_self bp fm_wrap_body root bn hgetb
        have hgetm : get_at_path (bp ++ [0]) (update_at bp fm_wrap_body root) =
            some (Node.elem "main" [] bn.children) := by
          rw [get_at_path_append, hget2]
          simp only [Option.some_bind]
          simp only [get_at_path]
          unfold fm_wrap_body
          rw [Node.children_withChildren]
          rfl
        have hfv2 : void_ok_list (((fm_filtered_of (fm_candidates root)).map
            (fun pc => (fm_remap bp pc.1, pc.2))).map (fun pc => pc.2)) = true := by
          have heq : ((fm_filtered_of (fm_candidates root)).map
              (fun pc => (fm_remap bp pc.1, pc.2))).map (fun pc => pc.2) =
              (fm_filtered_of (fm_candidates root)).map (fun pc => pc.2) := by
            rw [List.map_map]
            rfl
          rw [heq]
          exact hfv
        exact fm_finish_void _ (bp ++ [0]) _ _ hroot2 hgetm (by rfl) hfv2

theorem stack_append_top_void (stack : List Node) (c : Node) (s2 : List Node)
    (hst : ∀ fr ∈ stack, void_ok fr = true ∧ is_void_tag fr.tag = false)
    (hc : void_ok c = true) (h : stack_append_top stack c = some s2) :
    ∀ fr ∈ s2, void_ok fr = true ∧ is_void_tag fr.tag = false := by
  cases stack with
  | nil => cases h
  | cons top rest =>
    rw [stack_append_top] at h
    cases h
    intro fr hfr
    rcases List.mem_cons.mp hfr with h1 | h2
    · subst h1
      have htop := hst top (List.mem_cons_self _ _)
      refine ⟨?_, ?_⟩
      · rw [void_ok_withChildren, Bool.and_eq_true]
        constructor
        · rw [htop.2]; rfl
        · rw [void_ok_list_append, Bool.and_eq_true]
          refine ⟨void_ok_children top htop.1, ?_⟩
          rw [void_ok_list, Bool.and_eq_true]
          exact ⟨hc, rfl⟩
      · rw [Node.tag_withChildren]
        exact htop.2
    · exact hst fr (List.mem_cons_of_mem _ h2)

theorem pop_frames_void : ∀ (k : Nat) (st s2 : List Node),
    (∀ fr ∈ st, void_ok fr = true ∧ is_void_tag fr.tag = false) →
    pop_frames k st = some s2 →
    ∀ fr ∈ s2, void_ok fr = true ∧ is_void_tag fr.tag = false := by
  intro k
  induction k with
  | zero =>
    intro st s2 hst h
    rw [pop_frames] at h
    cases h
    exact hst
  | succ k2 ih =>
    intro st s2 hst h
    cases st with
    | nil => cases h
    | cons top rest =>
      cases rest with
      | nil => cases h
      | cons next rest2 =>
        rw [pop_frames] at h
        have htop := hst top (List.mem_cons_self _ _)
        have hnext := hst next (List.mem_cons_of_mem _ (List.mem_cons_self _ _))
        refine ih _ s2 ?_ h
        intro fr hfr
        rcases List.mem_cons.mp hfr with h1 | h2
        · subst h1
          refine ⟨?_, ?_⟩
          · rw [void_ok_withChildren, Bool.and_eq_true]
            constructor
            · rw [hnext.2]; rfl
            · rw [void_ok_list_append, Bool.and_eq_true]
              refine ⟨void_ok_children next hnext.1, ?_⟩
              rw [void_ok_list, Bool.and_eq_true]
              exact ⟨htop.1, rfl⟩
          · rw [Node.tag_withChildren]
            exact hnext.2
        · exact hst fr (List.mem_cons_of_mem _ (List.mem_cons_of_mem _ h2))

theorem builder_step_void (stack : List Node) (e : HEvent) (s2 : List Node)
    (hst : ∀ fr ∈ stack, void_ok fr = true ∧ is_void_tag fr.tag = false)
    (h : builder_step stack e = some s2) :
    ∀ fr ∈ s2, void_ok fr = true ∧ is_void_tag fr.tag = false := by
  cases e with
  | starttag t a =>
    have hr : builder_step stack (.starttag t a) = handle_starttag stack t a := rfl
    rw [hr] at h
    unfold handle_starttag at h
    by_cases hv : VOID_ELEMENTS.contains t = true
    · rw [if_pos (by simpa using hv)] at h
      refine stack_append_top_void stack _ s2 hst ?_ h
      rw [Node.elem, void_ok_mk]
      simp [void_ok_list]
    · rw [if_neg (by simpa using hv)] at h
      cases h
      intro fr hfr
      rcases List.mem_cons.mp hfr with h1 | h2
      · subst h1
        refine ⟨by rw [Node.elem, void_ok_mk]; simp [void_ok_list], ?_⟩
        have htag : (Node.elem t (dict_of a) []).tag = some t := rfl
        rw [htag]
        show VOID_ELEMENTS.contains t = false
        cases h3 : VOID_ELEMENTS.contains t
        · rfl
        · exact absurd h3 hv
      · exact hst fr h2
  | startendtag t a =>
    refine stack_append_top_void stack _ s2 hst ?_ h
    rw [Node.elem, void_ok_mk]
    simp [void_ok_list]
  | endtag t =>
    have hr : builder_step stack (.endtag t) = handle_endtag stack t := rfl
    rw [hr] at h
    unfold handle_endtag at h
    cases hs : endtag_scan stack t with
    | none =>
      rw [hs] at h
      cases h
      exact hst
    | some d =>
      rw [hs] at h
      exact pop_frames_void (d + 1) stack s2 hst h
  | data s =>
    have hr : builder_step stack (.data s) = handle_data stack s := rfl
    rw [hr] at h
    unfold handle_data at h
    by_cases he : (s == "") = true
    · rw [if_pos he] at h
      cases h
      exact hst
    · rw [if_neg he] at h
      refine stack_append_top_void stack _ s2 hst ?_ h
      rw [Node.textNode, void_ok_mk]
      simp [is_void_tag, void_ok_list]
  | comment s =>
    refine stack_append_top_void stack _ s2 hst ?_ h
    rw [Node.commentNode, void_ok_mk]
    simp [is_void_tag, void_ok_list]
  | decl s =>
    refine stack_append_top_void stack _ s2 hst ?_ h
    rw [Node.doctypeNode, void_ok_mk]
    simp [is_void_tag, void_ok_list]

theorem builder_run_void : ∀ (events : List HEvent) (st st2 : List Node),
    (∀ fr ∈ st, void_ok fr = true ∧ is_void_tag fr.tag = false) →
    builder_run_from st events = some st2 →
    ∀ fr ∈ st2, void_ok fr = true ∧ is_void_tag fr.tag = false := by
  intro events
  induction events with
  | nil =>
    intro st st2 hst h
    rw [builder_run_from] at h
    cases h
    exact hst
  | cons e es ih =>
    intro st st2 hst h
    rw [builder_run_from] at h
    cases hstep : builder_step st e with
    | none => rw [hstep] at h; cases h
    | some s2 =>
      rw [hstep] at h
      exact ih s2 st2 (builder_step_void st e s2 hst hstep) h

theorem build_dom_void (events : List HEvent) (t : Node)
    (h : build_dom events = some t) : void_ok t = true := by
  unfold build_dom at h
  cases hrun : builder_run_from builder_init events with
  | none => rw [hrun] at h; cases h
  | some st =>
    rw [hrun] at h
    simp only [Option.some_bind] at h
    cases hpop : pop_frames (st.length - 1) st with
    | none => rw [hpop] at h; cases h
    | some st2 =>
      rw [hpop] at h
      simp only [Option.some_bind] at h
      have hinit : ∀ fr ∈ builder_init, void_ok fr = true ∧ is_void_tag fr.tag = false := by
        intro fr hfr
        rcases List.mem_cons.mp hfr with h1 | h2
        · subst h1; exact ⟨by decide, by decide⟩
        · cases h2
      have hst := builder_run_void events builder_init st hinit hrun
      have hst2 := pop_frames_void (st.length - 1) st st2 hst hpop
      cases st2 with
      | nil => cases h
      | cons r rest =>
        have hr : r = t := by
          simpa using h
        subst hr
        exact (hst2 r (List.mem_cons_self _ _)).1

/-- Claim C8: the void element invariant (no element tagged as a void
element ever has children) holds for every tree the builder produces, is
preserved by every rewrite pass, and therefore holds after the whole
normalization pipeline on every built tree. -/
theorem c8_void_invariant :
    (∀ (events : List HEvent) (t : Node), build_dom events = some t → void_ok t = true) ∧
    (∀ t : Node, void_ok t = true → void_ok (remove_redundant_wrappers t) = true) ∧
    (∀ t : Node, void_ok t = true → void_ok (remove_empty_headings t) = true) ∧
    (∀ t : Node, void_ok t = true → void_ok (remove_empty_italics t) = true) ∧
    (∀ t : Node, void_ok t = true → void_ok (add_alt_text t) = true) ∧
    (∀ t : Node, void_ok t = true → void_ok (normalize_headings t) = true) ∧
    (∀ t : Node, void_ok t = true → void_ok (move_footer_elements t) = true) ∧
    (∀ t : Node, void_ok t = true → void_ok (ensure_matching_sections t) = true) ∧
    (∀ (events : List HEvent) (t : Node), build_dom events = some t →
      void_ok (process_pipeline t) = true) := by
  refine ⟨build_dom_void, rrw_void, reh_void, rei_void, alt_void, nh_void, move_footer_void,
    ems_void, ?_⟩
  intro events t h
  have h0 := build_dom_void events t h
  unfold process_pipeline
  exact ems_void _ (move_footer_void _ (nh_void _ (alt_void _ (rei_void _ (reh_void _
    (rrw_void _ h0))))))

/-- Claim C8 witness: a built document holding a void img element satisfies
the invariant, before and after the pipeline. -/
theorem c8_witness :
    build_dom [HEvent.starttag "p" [], HEvent.starttag "img" [("src", "a.png")],
        HEvent.endtag "p"] =
      some (Node.elem "root" [] [Node.elem "p" []
        [Node.elem "img" [("src", "a.png")] []]]) ∧
    void_ok (Node.elem "root" [] [Node.elem "p" []
      [Node.elem "img" [("src", "a.png")] []]]) = true ∧
    void_ok (process_pipeline (Node.elem "root" [] [Node.elem "p" []
      [Node.elem "img" [("src", "a.png")] []]])) = true :=
  ⟨by decide,
    c8_void_invariant.1 [HEvent.starttag "p" [], HEvent.starttag "img" [("src", "a.png")],
      HEvent.endtag "p"] _ (by decide),
    c8_void_invariant.2.2.2.2.2.2.2.2 [HEvent.starttag "p" [],
      HEvent.starttag "img" [("src", "a.png")], HEvent.endtag "p"] _ (by decide)⟩
